import Mathlib

/-!
# Verification of the dgraph bulkloader reduce/pl-builder core

Shallow embedding of `cmd/bulkloader/reduce.go` and `cmd/bulkloader/pl_builder.go`.

Byte sequences are modelled as `List Nat` (each element a byte value), 64-bit
integers as `Nat` (with explicit truncation where the Go code can overflow).
Channels are modelled as the lists of values they deliver; Go panics and
`x.Check`/`x.AssertTruef` failures are modelled by `Option`-valued functions
returning `none`.
-/

namespace Bulkloader

/-! ## Byte-lexicographic comparison (Go `bytes.Compare`) -/

/-- Model of Go `bytes.Compare` on byte slices: byte-lexicographic three-way
comparison. A `nil` slice compares equal to an empty one, so both are `[]`. -/
def bytesCompare : List Nat → List Nat → Ordering
  | [], [] => .eq
  | [], _ :: _ => .lt
  | _ :: _, [] => .gt
  | a :: as, b :: bs =>
    if a < b then .lt else if b < a then .gt else bytesCompare as bs

theorem bytesCompare_self (a : List Nat) : bytesCompare a a = .eq := by
  induction a with
  | nil => rfl
  | cons x xs ih => simp [bytesCompare, ih]

theorem bytesCompare_eq_iff {a b : List Nat} : bytesCompare a b = .eq ↔ a = b := by
  constructor
  · intro h
    induction a generalizing b with
    | nil => cases b with
      | nil => rfl
      | cons y ys => simp [bytesCompare] at h
    | cons x xs ih =>
      cases b with
      | nil => simp [bytesCompare] at h
      | cons y ys =>
        simp only [bytesCompare] at h
        by_cases h1 : x < y
        · simp [h1] at h
        · by_cases h2 : y < x
          · simp [h1, h2] at h
          · have hxy : x = y := by omega
            subst hxy
            simp only [Nat.lt_irrefl, if_false] at h
            rw [ih h]
  · rintro rfl; exact bytesCompare_self a

theorem bytesCompare_swap (a b : List Nat) :
    bytesCompare b a = (bytesCompare a b).swap := by
  induction a generalizing b with
  | nil => cases b <;> rfl
  | cons x xs ih =>
    cases b with
    | nil => rfl
    | cons y ys =>
      simp only [bytesCompare]
      rcases Nat.lt_trichotomy x y with h | h | h
      · simp [h, Nat.not_lt.mpr (Nat.le_of_lt h), Ordering.swap]
      · simp [h, Nat.lt_irrefl, ih]
      · simp [h, Nat.not_lt.mpr (Nat.le_of_lt h), Ordering.swap]

/-- `a` is at most `b` in the byte-lexicographic order. -/
def keyLE (a b : List Nat) : Prop := bytesCompare a b ≠ .gt

instance (a b : List Nat) : Decidable (keyLE a b) := by
  unfold keyLE; infer_instance

theorem keyLE_refl (a : List Nat) : keyLE a a := by
  simp [keyLE, bytesCompare_self]

theorem keyLE_total (a b : List Nat) : keyLE a b ∨ keyLE b a := by
  unfold keyLE
  cases h : bytesCompare a b with
  | lt => left; simp [h]
  | eq => left; simp [h]
  | gt =>
    right
    rw [bytesCompare_swap, h]
    simp [Ordering.swap]

theorem keyLE_trans {a b c : List Nat} (hab : keyLE a b) (hbc : keyLE b c) :
    keyLE a c := by
  unfold keyLE at *
  induction a generalizing b c with
  | nil => cases c with
    | nil => simp [bytesCompare]
    | cons z zs => simp [bytesCompare]
  | cons x xs ih =>
    cases b with
    | nil => simp [bytesCompare] at hab
    | cons y ys =>
      cases c with
      | nil => simp [bytesCompare] at hbc
      | cons z zs =>
        simp only [bytesCompare] at hab hbc ⊢
        by_cases hxy : x < y
        · by_cases hyz : y < z
          · simp [Nat.lt_trans hxy hyz]
          · by_cases hzy : z < y
            · simp [hyz, hzy] at hbc
            · have : y = z := by omega
              subst this
              simp [hxy]
        · by_cases hyx : y < x
          · simp [hxy, hyx] at hab
          · have hxyeq : x = y := by omega
            subst hxyeq
            simp only [Nat.lt_irrefl, if_false] at hab
            by_cases hxz : x < z
            · simp [hxz]
            · by_cases hzx : z < x
              · simp [hxz, hzx] at hbc
              · have : x = z := by omega
                subst this
                simp only [Nat.lt_irrefl, if_false] at hbc ⊢
                exact ih hab hbc

theorem keyLT_of_keyLE_ne {a b : List Nat} (h : keyLE a b) (hne : a ≠ b) :
    bytesCompare a b = .lt := by
  unfold keyLE at h
  cases hcmp : bytesCompare a b with
  | lt => rfl
  | eq => exact absurd (bytesCompare_eq_iff.mp hcmp) hne
  | gt => exact absurd hcmp h

theorem ne_of_keyLT {a b : List Nat} (h : bytesCompare a b = .lt) : a ≠ b := by
  intro hEq; subst hEq; rw [bytesCompare_self] at h; cases h

theorem keyLE_of_lt {a b : List Nat} (h : bytesCompare a b = .lt) : keyLE a b := by
  simp [keyLE, h]

theorem keyLE_trans_lt {a b c : List Nat} (hab : keyLE a b)
    (hbc : bytesCompare b c = .lt) : bytesCompare a c = .lt := by
  apply keyLT_of_keyLE_ne (keyLE_trans hab (keyLE_of_lt hbc))
  intro hEq
  subst hEq
  unfold keyLE at hab
  rw [bytesCompare_swap b a, hbc] at hab
  exact hab rfl

theorem keyLT_trans_le {a b c : List Nat} (hab : bytesCompare a b = .lt)
    (hbc : keyLE b c) : bytesCompare a c = .lt := by
  have hac : keyLE a c := keyLE_trans (keyLE_of_lt hab) hbc
  cases hcmp : bytesCompare a c with
  | lt => rfl
  | eq =>
    exfalso
    have hEq : a = c := bytesCompare_eq_iff.mp hcmp
    subst hEq
    unfold keyLE at hbc
    rw [bytesCompare_swap, hab] at hbc
    exact hbc rfl
  | gt => exact absurd hcmp hac

/-! ## Data model (`protos.MapEntry`, `protos.Posting`, `badger.Entry`) -/

/-- One posting of `protos.Posting` (external proto definition; only the fields
this core reads are modelled: `Uid`, `PostingType` and the value payload that
makes serialisation injective). `postingType` carries the enum's numeric value
(`REF = 0`, `VALUE = 1`, `VALUE_LANG = 2`; other values are possible for an
enum field on the wire). -/
structure Posting where
  uid : Nat
  postingType : Nat
  value : List Nat
deriving DecidableEq

/-- Numeric value of `protos.Posting_REF`. -/
def Posting_REF : Nat := 0
/-- Numeric value of `protos.Posting_VALUE`. -/
def Posting_VALUE : Nat := 1
/-- Numeric value of `protos.Posting_VALUE_LANG`. -/
def Posting_VALUE_LANG : Nat := 2

instance : Inhabited Posting := ⟨⟨0, 0, []⟩⟩

/-- One `protos.MapEntry`: a key plus either a bare `uid` (when `posting` is
`nil`, i.e. `none`) or a structured `posting`. -/
structure MapEntry where
  key : List Nat
  uid : Nat
  posting : Option Posting
deriving DecidableEq

/-- The value stored with a write. The external encoders (`bp128.DeltaPack` /
`bitPackUids` for packed UID sequences, gogo-proto marshalling for
`protos.PostingList` and `protos.Posting`) are modelled as injective
constructors that remember exactly what was encoded. A `PostingList` is
serialised together with its `Postings` field and its delta-packed `Uids`
field, so `plist` carries both. -/
inductive Value where
  | packed (uids : List Nat)
  | plist (postings : List Posting) (uids : List Nat)
  | posting (p : Posting)
deriving DecidableEq

/-- A `badger.Entry` as produced by the reduce step: key, value and the
one-byte `UserMeta` tag. -/
structure BadgerEntry where
  key : List Nat
  value : Value
  userMeta : Nat
deriving DecidableEq

/-! ## K-way merge and batch partitioner (`shufflePostings`, reduce.go:68-102)

Each shard channel is modelled as the list of entries it delivers.
`container/heap` is the Go standard library (external); it is modelled by its
contract: the root of the heap is always a minimal node under
`postingHeap.Less` (byte comparison of the current entries' keys), with ties
resolved by heap mechanics — the model resolves them to the first minimal
node, one of the behaviours the heap contract allows. -/

/-- One `heapNode`: the node's current entry together with the rest of the
values its channel will deliver. -/
structure HeapNode where
  mapEntry : MapEntry
  ch : List MapEntry
deriving DecidableEq

/-- Seeding loop of `shufflePostings`: `heap.Push(&ph, heapNode{mapEntry: <-ch, ch: ch})`
for every channel. Receiving from an already-closed (empty) channel yields a
nil `*protos.MapEntry`; the first comparison (or key access) on that nil entry
dereferences a nil pointer, so the stage panics — modelled as `none`. -/
def seedHeap : List (List MapEntry) → Option (List HeapNode)
  | [] => some []
  | [] :: _ => none
  | (e :: rest) :: chs => (seedHeap chs).map (fun ns => ⟨e, rest⟩ :: ns)

/-- Select a minimal node (by `postingHeap.Less`, i.e. `bytes.Compare` of the
current entries' keys) from a non-empty collection of heap nodes, returning it
together with the remaining nodes. This is the `container/heap` contract for
the heap root. -/
def selectMin : HeapNode → List HeapNode → HeapNode × List HeapNode
  | n, [] => (n, [])
  | n, m :: rest =>
    if bytesCompare m.mapEntry.key n.mapEntry.key = .lt then
      let (mn, others) := selectMin m rest
      (mn, n :: others)
    else
      let (mn, others) := selectMin n rest
      (mn, m :: others)

/-- Total number of entries still held by a collection of heap nodes (current
entry plus the channel's remaining entries). -/
def totalEntries (nodes : List HeapNode) : Nat :=
  nodes.foldr (fun n acc => 1 + n.ch.length + acc) 0

theorem selectMin_totalEntries (n : HeapNode) (ns : List HeapNode) :
    totalEntries ((selectMin n ns).1 :: (selectMin n ns).2) =
      totalEntries (n :: ns) := by
  induction ns generalizing n with
  | nil => rfl
  | cons m rest ih =>
    simp only [selectMin]
    split
    · have := ih m
      simp only [totalEntries, List.foldr] at *
      omega
    · have := ih n
      simp only [totalEntries, List.foldr] at *
      omega

theorem totalEntries_cons (x : HeapNode) (l : List HeapNode) :
    totalEntries (x :: l) = 1 + x.ch.length + totalEntries l := rfl

theorem selectMin_perm (n : HeapNode) (ns : List HeapNode) :
    ((selectMin n ns).1 :: (selectMin n ns).2).Perm (n :: ns) := by
  induction ns generalizing n with
  | nil => simp [selectMin]
  | cons m rest ih =>
    simp only [selectMin]
    split
    · dsimp only
      exact (List.Perm.swap n (selectMin m rest).1 (selectMin m rest).2).trans
        ((ih m).cons n)
    · dsimp only
      exact (List.Perm.swap m (selectMin n rest).1 (selectMin n rest).2).trans
        (((ih n).cons m).trans (List.Perm.swap n m rest))

theorem selectMin_min (n : HeapNode) (ns : List HeapNode) :
    ∀ nd ∈ n :: ns, keyLE (selectMin n ns).1.mapEntry.key nd.mapEntry.key := by
  induction ns generalizing n with
  | nil =>
    intro nd hnd
    rcases List.mem_cons.mp hnd with rfl | h
    · exact keyLE_refl _
    · simp at h
  | cons m rest ih =>
    intro nd hnd
    simp only [selectMin]
    split
    · rename_i hlt
      dsimp only
      have hmin := ih m
      rcases List.mem_cons.mp hnd with rfl | hnd'
      · exact keyLE_trans (hmin m (by simp)) (keyLE_of_lt hlt)
      · rcases List.mem_cons.mp hnd' with rfl | hnd''
        · exact hmin nd (by simp)
        · exact hmin nd (by simp [hnd''])
    · rename_i hnlt
      dsimp only
      have hmin := ih n
      have hle : keyLE n.mapEntry.key m.mapEntry.key := by
        unfold keyLE
        rw [bytesCompare_swap]
        cases h' : bytesCompare m.mapEntry.key n.mapEntry.key with
        | lt => exact absurd h' hnlt
        | eq => simp [Ordering.swap]
        | gt => simp [Ordering.swap]
      rcases List.mem_cons.mp hnd with rfl | hnd'
      · exact hmin nd (by simp)
      · rcases List.mem_cons.mp hnd' with rfl | hnd''
        · exact keyLE_trans (hmin n (by simp)) hle
        · exact hmin nd (by simp [hnd''])

/-- The merge loop of `shufflePostings` (reduce.go:80-97) with the batching
stripped out: repeatedly take the heap root's entry `me`, pull the next entry
from that node's channel (re-fixing the heap) or drop the node when its
channel is exhausted, and emit `me`. -/
def mergeSeq : List HeapNode → List MapEntry
  | [] => []
  | n :: ns =>
    match h : (selectMin n ns).1.ch with
    | [] => (selectMin n ns).1.mapEntry :: mergeSeq (selectMin n ns).2
    | e :: r =>
      (selectMin n ns).1.mapEntry :: mergeSeq (⟨e, r⟩ :: (selectMin n ns).2)
termination_by nodes => totalEntries nodes
decreasing_by
  · have ht := selectMin_totalEntries n ns
    rw [totalEntries_cons, h] at ht
    simp only [List.length_nil] at ht
    omega
  · have ht := selectMin_totalEntries n ns
    rw [totalEntries_cons, h] at ht
    rw [totalEntries_cons]
    simp only [List.length_cons] at ht ⊢
    omega

/-- `batchSize` constant of `shufflePostings` (`1e5`). -/
def batchSize : Nat := 100000

/-- The batching logic of the `shufflePostings` loop (reduce.go:90-101), as a
fold over the merged entry sequence: when the current batch has reached
`batchSize` entries and the next entry's key differs from the previously
appended entry's key, the batch is sent and a new one started; at stream end a
non-empty final batch is sent. -/
def batchLoop (batch : List MapEntry) (prevKey : List Nat) :
    List MapEntry → List (List MapEntry)
  | [] => if batch.isEmpty then [] else [batch]
  | me :: rest =>
    if batch.length ≥ batchSize ∧ bytesCompare prevKey me.key ≠ .eq then
      batch :: batchLoop [me] me.key rest
    else
      batchLoop (batch ++ [me]) me.key rest

/-- `shufflePostings` (reduce.go:68-102): seed the heap from the shard
channels, then run the fused merge/batch loop. The result is the list of
batches sent on `batchCh`; `none` models the nil-entry panic on an empty
source channel. -/
def shufflePostings (sources : List (List MapEntry)) :
    Option (List (List MapEntry)) :=
  (seedHeap sources).map (fun nodes => batchLoop [] [] (mergeSeq nodes))

/-! ## Merge correctness -/

/-- Non-decreasing by byte-lexicographic key (Prop form). -/
def sortedEntries (l : List MapEntry) : Prop :=
  List.Chain' (fun a b => keyLE a.key b.key) l

/-- Non-decreasing by byte-lexicographic key (executable form). -/
def sortedByKey : List MapEntry → Bool
  | [] => true
  | [_] => true
  | a :: b :: rest =>
    decide (keyLE a.key b.key) && sortedByKey (b :: rest)

theorem sortedByKey_iff (l : List MapEntry) :
    sortedByKey l = true ↔ sortedEntries l := by
  induction l with
  | nil => simp [sortedByKey, sortedEntries]
  | cons a l ih =>
    cases l with
    | nil => simp [sortedByKey, sortedEntries]
    | cons b rest =>
      simp only [sortedByKey, Bool.and_eq_true, decide_eq_true_eq]
      rw [ih]
      unfold sortedEntries
      rw [List.chain'_cons]

theorem sorted_head_le {a : MapEntry} {l : List MapEntry}
    (h : sortedEntries (a :: l)) : ∀ e ∈ a :: l, keyLE a.key e.key := by
  induction l generalizing a with
  | nil =>
    intro e he
    rcases List.mem_cons.mp he with rfl | h'
    · exact keyLE_refl _
    · simp at h'
  | cons b rest ih =>
    intro e he
    unfold sortedEntries at h
    rw [List.chain'_cons] at h
    rcases List.mem_cons.mp he with rfl | h'
    · exact keyLE_refl _
    · exact keyLE_trans h.1 (ih h.2 e h')

theorem sorted_all_le_getLast {l : List MapEntry} {lastE : MapEntry}
    (h : sortedEntries l) (hl : l.getLast? = some lastE) :
    ∀ e ∈ l, keyLE e.key lastE.key := by
  induction l with
  | nil => simp at hl
  | cons a rest ih =>
    intro e he
    cases rest with
    | nil =>
      simp at hl
      subst hl
      rcases List.mem_cons.mp he with rfl | h'
      · exact keyLE_refl _
      · simp at h'
    | cons b rest' =>
      unfold sortedEntries at h
      rw [List.chain'_cons] at h
      rw [List.getLast?_cons_cons] at hl
      rcases List.mem_cons.mp he with rfl | h'
      · have hb : keyLE b.key lastE.key :=
          ih h.2 hl b (by simp)
        exact keyLE_trans h.1 hb
      · exact ih h.2 hl e h'

/-- Entries still to be delivered by one heap node: its current entry followed
by its channel's remaining entries. -/
def nodeEntries (nd : HeapNode) : List MapEntry := nd.mapEntry :: nd.ch

/-- A heap node whose own entry stream is sorted. -/
def goodNode (nd : HeapNode) : Prop := sortedEntries (nodeEntries nd)

theorem mergeSeq_cons_of_ch_nil {n : HeapNode} {ns : List HeapNode}
    (h : (selectMin n ns).1.ch = []) :
    mergeSeq (n :: ns) =
      (selectMin n ns).1.mapEntry :: mergeSeq (selectMin n ns).2 := by
  rw [mergeSeq]
  split
  · rfl
  · rename_i e r h2
    rw [h] at h2
    cases h2

theorem mergeSeq_cons_of_ch_cons {n : HeapNode} {ns : List HeapNode}
    {e : MapEntry} {r : List MapEntry} (h : (selectMin n ns).1.ch = e :: r) :
    mergeSeq (n :: ns) =
      (selectMin n ns).1.mapEntry ::
        mergeSeq (⟨e, r⟩ :: (selectMin n ns).2) := by
  rw [mergeSeq]
  split
  · rename_i h2
    rw [h] at h2
    cases h2
  · rename_i e' r' h2
    rw [h] at h2
    injection h2 with h3 h4
    subst h3
    subst h4
    rfl

theorem mergeSeq_perm (nodes : List HeapNode) :
    (mergeSeq nodes).Perm (nodes.map nodeEntries).flatten := by
  induction nodes using mergeSeq.induct with
  | case1 => simp [mergeSeq]
  | case2 n ns h ih =>
    rw [mergeSeq_cons_of_ch_nil h]
    have hjoin : (((selectMin n ns).1 :: (selectMin n ns).2).map nodeEntries).flatten.Perm
        ((n :: ns).map nodeEntries).flatten :=
      ((selectMin_perm n ns).map nodeEntries).flatten
    refine List.Perm.trans ?_ hjoin
    simp only [List.map_cons, List.flatten_cons, nodeEntries, h, List.nil_append]
    exact ih.cons _
  | case3 n ns e r h ih =>
    rw [mergeSeq_cons_of_ch_cons h]
    have hjoin : (((selectMin n ns).1 :: (selectMin n ns).2).map nodeEntries).flatten.Perm
        ((n :: ns).map nodeEntries).flatten :=
      ((selectMin_perm n ns).map nodeEntries).flatten
    refine List.Perm.trans ?_ hjoin
    simp only [List.map_cons, List.flatten_cons, nodeEntries, h]
    simpa using ih.cons (selectMin n ns).1.mapEntry

theorem mergeSeq_sorted (nodes : List HeapNode)
    (hgood : ∀ nd ∈ nodes, goodNode nd) :
    sortedEntries (mergeSeq nodes) ∧
      ∀ e ∈ mergeSeq nodes, ∃ nd ∈ nodes, keyLE nd.mapEntry.key e.key := by
  induction nodes using mergeSeq.induct with
  | case1 => simp [mergeSeq, sortedEntries]
  | case2 n ns h ih =>
    have hmem : ∀ nd, nd ∈ (selectMin n ns).1 :: (selectMin n ns).2 ↔ nd ∈ n :: ns :=
      fun nd => (selectMin_perm n ns).mem_iff
    have hgood2 : ∀ nd ∈ (selectMin n ns).2, goodNode nd := by
      intro nd hnd
      exact hgood nd ((hmem nd).mp (by simp [hnd]))
    obtain ⟨ihs, ihb⟩ := ih hgood2
    have hminAll : ∀ nd ∈ n :: ns, keyLE (selectMin n ns).1.mapEntry.key nd.mapEntry.key :=
      selectMin_min n ns
    have hbound : ∀ e ∈ mergeSeq (selectMin n ns).2,
        keyLE (selectMin n ns).1.mapEntry.key e.key := by
      intro e he
      obtain ⟨nd, hnd, hle⟩ := ihb e he
      exact keyLE_trans (hminAll nd ((hmem nd).mp (by simp [hnd]))) hle
    constructor
    · rw [mergeSeq_cons_of_ch_nil h]
      unfold sortedEntries
      rw [List.chain'_cons']
      refine ⟨?_, ihs⟩
      intro y hy
      exact hbound y (List.mem_of_mem_head? hy)
    · intro e he
      rw [mergeSeq_cons_of_ch_nil h] at he
      rcases List.mem_cons.mp he with rfl | he'
      · exact ⟨(selectMin n ns).1, (hmem _).mp (by simp), keyLE_refl _⟩
      · obtain ⟨nd, hnd, hle⟩ := ihb e he'
        exact ⟨nd, (hmem nd).mp (by simp [hnd]), hle⟩
  | case3 n ns e r h ih =>
    have hmem : ∀ nd, nd ∈ (selectMin n ns).1 :: (selectMin n ns).2 ↔ nd ∈ n :: ns :=
      fun nd => (selectMin_perm n ns).mem_iff
    have hgoodSel : goodNode (selectMin n ns).1 :=
      hgood _ ((hmem _).mp (by simp))
    have hgoodER : goodNode ⟨e, r⟩ := by
      unfold goodNode nodeEntries at hgoodSel ⊢
      rw [h] at hgoodSel
      unfold sortedEntries at hgoodSel ⊢
      rw [List.chain'_cons] at hgoodSel
      exact hgoodSel.2
    have hSelE : keyLE (selectMin n ns).1.mapEntry.key e.key := by
      unfold goodNode nodeEntries at hgoodSel
      rw [h] at hgoodSel
      unfold sortedEntries at hgoodSel
      rw [List.chain'_cons] at hgoodSel
      exact hgoodSel.1
    have hgood2 : ∀ nd ∈ (⟨e, r⟩ : HeapNode) :: (selectMin n ns).2, goodNode nd := by
      intro nd hnd
      rcases List.mem_cons.mp hnd with rfl | hnd'
      · exact hgoodER
      · exact hgood nd ((hmem nd).mp (by simp [hnd']))
    obtain ⟨ihs, ihb⟩ := ih hgood2
    have hminAll : ∀ nd ∈ n :: ns, keyLE (selectMin n ns).1.mapEntry.key nd.mapEntry.key :=
      selectMin_min n ns
    have hbound : ∀ x ∈ mergeSeq ((⟨e, r⟩ : HeapNode) :: (selectMin n ns).2),
        keyLE (selectMin n ns).1.mapEntry.key x.key := by
      intro x hx
      obtain ⟨nd, hnd, hle⟩ := ihb x hx
      rcases List.mem_cons.mp hnd with rfl | hnd'
      · exact keyLE_trans hSelE hle
      · exact keyLE_trans (hminAll nd ((hmem nd).mp (by simp [hnd']))) hle
    constructor
    · rw [mergeSeq_cons_of_ch_cons h]
      unfold sortedEntries
      rw [List.chain'_cons']
      refine ⟨?_, ihs⟩
      intro y hy
      exact hbound y (List.mem_of_mem_head? hy)
    · intro x hx
      rw [mergeSeq_cons_of_ch_cons h] at hx
      rcases List.mem_cons.mp hx with rfl | hx'
      · exact ⟨(selectMin n ns).1, (hmem _).mp (by simp), keyLE_refl _⟩
      · obtain ⟨nd, hnd, hle⟩ := ihb x hx'
        rcases List.mem_cons.mp hnd with rfl | hnd'
        · exact ⟨(selectMin n ns).1, (hmem _).mp (by simp),
            keyLE_trans hSelE hle⟩
        · exact ⟨nd, (hmem nd).mp (by simp [hnd']), hle⟩

/-! ## Batch partitioner properties -/

theorem batchLoop_flatten (l batch : List MapEntry) (prevKey : List Nat) :
    (batchLoop batch prevKey l).flatten = batch ++ l := by
  induction l generalizing batch prevKey with
  | nil =>
    by_cases h : batch.isEmpty
    · simp [batchLoop, h, List.isEmpty_iff.mp h]
    · simp [batchLoop, h]
  | cons me rest ih =>
    rw [batchLoop]
    split
    · simp [ih]
    · simp [ih]

theorem batchLoop_ne_nil (l : List MapEntry) (batch : List MapEntry)
    (prevKey : List Nat) (hb : batch ≠ []) : batchLoop batch prevKey l ≠ [] := by
  induction l generalizing batch prevKey with
  | nil => simp [batchLoop, hb]
  | cons me rest ih =>
    rw [batchLoop]
    split
    · simp
    · exact ih (batch ++ [me]) me.key (by simp)

theorem batchLoop_nonempty (l batch : List MapEntry) (prevKey : List Nat) :
    ∀ b ∈ batchLoop batch prevKey l, b ≠ [] := by
  induction l generalizing batch prevKey with
  | nil =>
    intro b hb
    by_cases h : batch.isEmpty
    · simp [batchLoop, h] at hb
    · simp [batchLoop, h] at hb
      subst hb
      exact fun hEq => by simp [hEq] at h
  | cons me rest ih =>
    intro b hb
    rw [batchLoop] at hb
    split at hb
    · rename_i hcond
      rcases List.mem_cons.mp hb with rfl | hb'
      · intro hEq
        rw [hEq] at hcond
        simp [batchSize] at hcond
      · exact ih [me] me.key b hb'
    · exact ih (batch ++ [me]) me.key b hb

theorem batchLoop_dropLast_size (l batch : List MapEntry) (prevKey : List Nat) :
    ∀ b ∈ (batchLoop batch prevKey l).dropLast, batchSize ≤ b.length := by
  induction l generalizing batch prevKey with
  | nil =>
    intro b hb
    by_cases h : batch.isEmpty
    · simp [batchLoop, h] at hb
    · simp [batchLoop, h] at hb
  | cons me rest ih =>
    intro b hb
    rw [batchLoop] at hb
    split at hb
    · rename_i hcond
      have hne : batchLoop [me] me.key rest ≠ [] :=
        batchLoop_ne_nil rest [me] me.key (by simp)
      obtain ⟨x, xs, hx⟩ := List.exists_cons_of_ne_nil hne
      rw [hx] at hb
      rw [List.dropLast_cons₂] at hb
      rcases List.mem_cons.mp hb with rfl | hb'
      · exact hcond.1
      · rw [← hx] at hb'
        exact ih [me] me.key b hb'
    · exact ih (batch ++ [me]) me.key b hb

/-- Two batches have no key in common. -/
def keysDisjoint (b1 b2 : List MapEntry) : Prop :=
  ∀ e1 ∈ b1, ∀ e2 ∈ b2, e1.key ≠ e2.key

/-- No key appears in two different batches (executable form). -/
def batchesKeyDisjoint : List (List MapEntry) → Bool
  | [] => true
  | b :: rest =>
    (rest.all fun b2 => b.all fun e1 => b2.all fun e2 => !decide (e1.key = e2.key))
      && batchesKeyDisjoint rest

theorem batchesKeyDisjoint_iff (bs : List (List MapEntry)) :
    batchesKeyDisjoint bs = true ↔ List.Pairwise keysDisjoint bs := by
  induction bs with
  | nil => simp [batchesKeyDisjoint]
  | cons b rest ih =>
    simp only [batchesKeyDisjoint, Bool.and_eq_true, List.all_eq_true,
      Bool.not_eq_true', decide_eq_false_iff_not, List.pairwise_cons, ih,
      keysDisjoint]

/-- Main partitioner invariant: starting from a batch whose entries all
precede the remaining stream, whose last entry's key is `prevKey`, the
produced batches are pairwise key-disjoint. -/
theorem batchLoop_disjoint (l : List MapEntry) :
    ∀ (batch : List MapEntry) (prevKey : List Nat),
      sortedEntries (batch ++ l) →
      (∀ lastE, batch.getLast? = some lastE → prevKey = lastE.key) →
      List.Pairwise keysDisjoint (batchLoop batch prevKey l) := by
  induction l with
  | nil =>
    intro batch prevKey _ _
    by_cases h : batch.isEmpty
    · simp [batchLoop, h]
    · simp [batchLoop, h]
  | cons me rest ih =>
    intro batch prevKey hsorted hprev
    rw [batchLoop]
    split
    · rename_i hcond
      -- a batch is flushed: its keys are strictly below every later key
      have hbne : batch ≠ [] := by
        intro hEq
        rw [hEq] at hcond
        simp [batchSize] at hcond
      obtain ⟨lastE, hlast⟩ := List.getLast?_isSome.mpr hbne |> Option.isSome_iff_exists.mp
      have hprevK : prevKey = lastE.key := hprev lastE hlast
      -- split the sortedness across the batch boundary
      have hs1 : sortedEntries batch ∧ sortedEntries (me :: rest) ∧
          keyLE lastE.key me.key := by
        unfold sortedEntries at hsorted ⊢
        rw [List.chain'_append] at hsorted
        refine ⟨hsorted.1, hsorted.2.1, ?_⟩
        exact hsorted.2.2 lastE hlast me (by simp)
      have hlt : bytesCompare lastE.key me.key = .lt := by
        apply keyLT_of_keyLE_ne hs1.2.2
        intro hEq
        apply hcond.2
        rw [hprevK, hEq, bytesCompare_self]
      constructor
      · -- the flushed batch is key-disjoint from every later batch
        intro b2 hb2 e1 he1 e2 he2
        have he2mem : e2 ∈ me :: rest := by
          have : e2 ∈ (batchLoop [me] me.key rest).flatten :=
            List.mem_flatten.mpr ⟨b2, hb2, he2⟩
          rwa [batchLoop_flatten] at this
        have h1 : keyLE e1.key lastE.key :=
          sorted_all_le_getLast hs1.1 hlast e1 he1
        have h2 : keyLE me.key e2.key :=
          sorted_head_le hs1.2.1 e2 he2mem
        exact ne_of_keyLT (keyLE_trans_lt h1 (keyLT_trans_le hlt h2))
      · exact ih [me] me.key (by simpa using hs1.2.1) (by simp)
    · rename_i hcond
      apply ih (batch ++ [me]) me.key
      · simpa using hsorted
      · intro lastE hlast
        rw [List.getLast?_concat] at hlast
        injection hlast with h
        rw [← h]

theorem seedHeap_sound (sources : List (List MapEntry))
    (h : ∀ s ∈ sources, s ≠ []) :
    ∃ nodes, seedHeap sources = some nodes ∧ nodes.map nodeEntries = sources := by
  induction sources with
  | nil => exact ⟨[], rfl, rfl⟩
  | cons s ss ih =>
    cases s with
    | nil => exact absurd rfl (h [] (by simp))
    | cons e rest =>
      obtain ⟨nodes, h1, h2⟩ := ih (fun s hs => h s (by simp [hs]))
      refine ⟨⟨e, rest⟩ :: nodes, ?_, ?_⟩
      · simp [seedHeap, h1]
      · simp [nodeEntries, h2]

/-! ## Claim theorems: merge stage and batch partitioner -/

/-- C1 (counterexample): with a single empty input sequence, `shufflePostings`
produces no output at all — the seeding loop receives from the closed channel,
obtaining a nil `*protos.MapEntry`, and the stage dereferences it
(`prevKey = me.Key`) and panics. The claim asserts the merge output is the
(empty) multiset union of the inputs in this case; instead there is no output
sequence. -/
theorem mergeStage_empty_source_counterexample :
    shufflePostings [([] : List MapEntry)] = none := rfl

/-- C1 (amended): for any set of already-sorted *non-empty* Entry sequences,
the merge stage's output (the concatenation of the batches it sends) is
sorted by byte-lexicographic key and is exactly the multiset union of the
inputs — no entry duplicated or dropped. -/
theorem mergeStage_sorted_union (sources : List (List MapEntry))
    (h : sources.all (fun s => !s.isEmpty && sortedByKey s) = true) :
    ∃ bs, shufflePostings sources = some bs ∧
      sortedByKey bs.flatten = true ∧ bs.flatten.Perm sources.flatten := by
  simp only [List.all_eq_true, Bool.and_eq_true, Bool.not_eq_true',
    List.isEmpty_eq_false] at h
  obtain ⟨nodes, hseed, hmap⟩ :=
    seedHeap_sound sources (fun s hs => (h s hs).1)
  have hgood : ∀ nd ∈ nodes, goodNode nd := by
    intro nd hnd
    have : nodeEntries nd ∈ sources := by
      rw [← hmap]
      exact List.mem_map_of_mem nodeEntries hnd
    exact (sortedByKey_iff _).mp (h _ this).2
  refine ⟨batchLoop [] [] (mergeSeq nodes), ?_, ?_, ?_⟩
  · simp [shufflePostings, hseed]
  · rw [batchLoop_flatten, List.nil_append, sortedByKey_iff]
    exact (mergeSeq_sorted nodes hgood).1
  · rw [batchLoop_flatten, List.nil_append, ← hmap]
    exact mergeSeq_perm nodes

/-- C1 witness: two singleton sorted sources merge into a sorted permutation
of their union. -/
theorem mergeStage_sorted_union_witness :
    ∃ bs,
      shufflePostings [[⟨[1], 10, none⟩], [⟨[0], 20, none⟩]] = some bs ∧
      sortedByKey bs.flatten = true ∧
      bs.flatten.Perm
        ([[⟨[1], 10, none⟩], [⟨[0], 20, none⟩]] :
          List (List MapEntry)).flatten :=
  mergeStage_sorted_union _ (by decide)

/-- C2: for every key-sorted merged input sequence, no key appears in two
different batches produced by the partitioner loop of `shufflePostings`
(a batch boundary is placed only where the key changes). -/
theorem partitioner_no_key_split (es : List MapEntry)
    (h : sortedByKey es = true) :
    batchesKeyDisjoint (batchLoop [] [] es) = true := by
  rw [batchesKeyDisjoint_iff]
  apply batchLoop_disjoint es [] []
  · simpa [sortedEntries] using (sortedByKey_iff es).mp h
  · intro lastE hlast
    simp at hlast

/-- C2 witness: a concrete sorted sequence yields key-disjoint batches. -/
theorem partitioner_no_key_split_witness :
    batchesKeyDisjoint
      (batchLoop [] []
        [⟨[0], 1, none⟩, ⟨[0], 2, none⟩, ⟨[1], 3, none⟩]) = true :=
  partitioner_no_key_split _ (by decide)

/-- C6: every batch the partitioner emits, except possibly the final flushed
one, contains at least `batchSize = 100000` entries, and every emitted batch
(including the final one) is non-empty. -/
theorem partitioner_batch_sizes (es : List MapEntry) :
    ((batchLoop [] [] es).dropLast.all (fun b => decide (batchSize ≤ b.length))
      && (batchLoop [] [] es).all (fun b => !b.isEmpty)) = true := by
  rw [Bool.and_eq_true]
  constructor
  · rw [List.all_eq_true]
    intro b hb
    exact decide_eq_true (batchLoop_dropLast_size es [] [] b hb)
  · rw [List.all_eq_true]
    intro b hb
    simp only [Bool.not_eq_true', List.isEmpty_eq_false]
    exact batchLoop_nonempty es [] [] b hb

/-! ## Reduce step (`reduce`, reduce.go:131-205)

The `outputPostingList` closure and the batch loop. The pooled `badger.Entry`
objects are zeroed before reuse (`*e = badger.Entry{}` in the completion
callback), so an entry's `UserMeta` is `0` unless the UID-only branch sets it
to `0x01`. `currentKey` starts as a nil slice; it is modelled as
`Option (List Nat)` with `none` for the initial nil (the `currentKey != nil`
guard). `bytes.Compare(a, b) != 0` is equality of the byte lists
(`bytesCompare_eq_iff`), so the flush guard is modelled as key inequality. -/

/-- `outputPostingList` (reduce.go:139-168): emit one `badger.Entry` for the
accumulated key. No value-bearing postings: delta-packed UIDs, `UserMeta =
0x01`. Otherwise: marshalled `protos.PostingList` whose `Uids` field is the
delta-packed UID sequence, `UserMeta = 0` (zero value). -/
def outputPostingList (currentKey : Option (List Nat)) (uids : List Nat)
    (postings : List Posting) : BadgerEntry :=
  if postings.isEmpty then
    { key := currentKey.getD [], value := Value.packed uids, userMeta := 1 }
  else
    { key := currentKey.getD [], value := Value.plist postings uids,
      userMeta := 0 }

/-- The loop of `reduce` (reduce.go:170-185): walk the batch, flushing the
accumulated posting list whenever the key changes (and the current key is
non-nil), then flush once more at the end. -/
def reduceLoop (currentKey : Option (List Nat)) (uids : List Nat)
    (postings : List Posting) : List MapEntry → List BadgerEntry
  | [] => [outputPostingList currentKey uids postings]
  | me :: rest =>
    match currentKey with
    | some k =>
      if me.key ≠ k then
        outputPostingList currentKey uids postings ::
          (match me.posting with
           | none => reduceLoop (some me.key) [me.uid] [] rest
           | some p => reduceLoop (some me.key) [p.uid] [p] rest)
      else
        match me.posting with
        | none => reduceLoop (some me.key) (uids ++ [me.uid]) postings rest
        | some p =>
          reduceLoop (some me.key) (uids ++ [p.uid]) (postings ++ [p]) rest
    | none =>
      match me.posting with
      | none => reduceLoop (some me.key) (uids ++ [me.uid]) postings rest
      | some p =>
        reduceLoop (some me.key) (uids ++ [p.uid]) (postings ++ [p]) rest

/-- `reduce` (reduce.go:131-185), restricted to the `badger.Entry` list it
hands to `kv.BatchSetAsync` (the asynchronous write path is modelled
separately). -/
def reduceEntries (batch : List MapEntry) : List BadgerEntry :=
  reduceLoop none [] [] batch

/-- The UID contributed by one entry: `mapEntry.Uid` for a reference-only
entry, `mapEntry.Posting.Uid` for a value-bearing one. -/
def entryUid (me : MapEntry) : Nat :=
  match me.posting with
  | none => me.uid
  | some p => p.uid

/-- All UIDs observed for a run of entries, in arrival order. -/
def groupUids (g : List MapEntry) : List Nat := g.map entryUid

/-- The value-bearing postings of a run of entries, in arrival order. -/
def groupPostings (g : List MapEntry) : List Posting := g.filterMap (·.posting)

/-- The key of a run of entries (key of its first entry). -/
def groupKey : List MapEntry → List Nat
  | [] => []
  | e :: _ => e.key

/-- What the claim says the reduce step must persist for one key's run of
entries: with zero value-bearing entries, the delta-packed UID sequence
tagged `1`; with at least one, the serialized posting list holding exactly
the value-bearing postings and the delta-packed sequence of all observed
UIDs, tagged `0`. -/
def expectedReduceEntry (g : List MapEntry) : BadgerEntry :=
  if groupPostings g = [] then
    { key := groupKey g, value := Value.packed (groupUids g), userMeta := 1 }
  else
    { key := groupKey g, value := Value.plist (groupPostings g) (groupUids g),
      userMeta := 0 }

/-- A non-empty run of entries all bearing the same key. -/
def isKeyGroup : List MapEntry → Bool
  | [] => false
  | e :: rest => rest.all fun e2 => decide (e2.key = e.key)

/-- The groups' keys are pairwise distinct. -/
def pairwiseDistinctKeys : List (List MapEntry) → Bool
  | [] => true
  | g :: rest =>
    (rest.all fun g2 => !decide (groupKey g2 = groupKey g))
      && pairwiseDistinctKeys rest

theorem isKeyGroup_keys {g : List MapEntry} (h : isKeyGroup g = true) :
    ∀ e ∈ g, e.key = groupKey g := by
  cases g with
  | nil => simp [isKeyGroup] at h
  | cons e0 rest =>
    simp only [isKeyGroup, List.all_eq_true, decide_eq_true_eq] at h
    intro e he
    rcases List.mem_cons.mp he with rfl | he'
    · rfl
    · exact h e he'

theorem isKeyGroup_ne_nil {g : List MapEntry} (h : isKeyGroup g = true) :
    g ≠ [] := by
  intro hEq
  rw [hEq] at h
  simp [isKeyGroup] at h

/-- Consuming a run of equal-key entries: no flush happens, the UIDs and
value postings accumulate. -/
theorem reduceLoop_run (g : List MapEntry) (k : List Nat)
    (hk : ∀ e ∈ g, e.key = k) :
    ∀ (uids : List Nat) (postings : List Posting) (rest : List MapEntry),
      reduceLoop (some k) uids postings (g ++ rest) =
        reduceLoop (some k) (uids ++ groupUids g)
          (postings ++ groupPostings g) rest := by
  induction g with
  | nil => intro uids postings rest; simp [groupUids, groupPostings]
  | cons e g' ih =>
    intro uids postings rest
    have he : e.key = k := hk e (by simp)
    have hk' : ∀ x ∈ g', x.key = k := fun x hx => hk x (by simp [hx])
    rw [List.cons_append, reduceLoop]
    simp only [he]
    rw [if_neg (by simp)]
    cases hp : e.posting with
    | none =>
      dsimp only
      rw [ih hk' (uids ++ [e.uid]) postings rest]
      simp [groupUids, groupPostings, entryUid, hp]
    | some p =>
      dsimp only
      rw [ih hk' (uids ++ [p.uid]) (postings ++ [p]) rest]
      simp [groupUids, groupPostings, entryUid, hp]

theorem outputPostingList_eq_expected (g : List MapEntry) :
    outputPostingList (some (groupKey g)) (groupUids g) (groupPostings g) =
      expectedReduceEntry g := by
  unfold outputPostingList expectedReduceEntry
  by_cases h : groupPostings g = []
  · simp [h]
  · simp [h, List.isEmpty_iff]

/-- Spine of the reduce proof: with the state holding group `g0`'s
accumulation, consuming the remaining groups emits exactly one expected entry
per group. Only adjacent groups need distinct keys. -/
theorem reduceLoop_groups (groups : List (List MapEntry)) :
    ∀ g0 : List MapEntry, g0 ≠ [] →
      (∀ e ∈ g0, e.key = groupKey g0) →
      (∀ g ∈ groups, g ≠ [] ∧ ∀ e ∈ g, e.key = groupKey g) →
      List.Chain' (fun a b => groupKey a ≠ groupKey b) (g0 :: groups) →
      reduceLoop (some (groupKey g0)) (groupUids g0) (groupPostings g0)
          groups.flatten =
        expectedReduceEntry g0 :: groups.map expectedReduceEntry := by
  induction groups with
  | nil =>
    intro g0 hne _ _ _
    simp only [List.flatten_nil, reduceLoop, List.map_nil]
    rw [outputPostingList_eq_expected g0]
  | cons g1 gs ih =>
    intro g0 hne hkeys hgs hchain
    obtain ⟨hg1ne, hg1keys⟩ := hgs g1 (by simp)
    obtain ⟨e, g1', rfl⟩ := List.exists_cons_of_ne_nil hg1ne
    have hek : e.key = groupKey (e :: g1') := hg1keys e (by simp)
    have hkne : groupKey (e :: g1') ≠ groupKey g0 := by
      have := List.chain'_cons.mp hchain
      exact fun hEq => this.1 hEq.symm
    have hkne' : e.key ≠ groupKey g0 := by rw [hek]; exact hkne
    rw [List.flatten_cons, List.cons_append, reduceLoop]
    rw [if_pos hkne']
    rw [outputPostingList_eq_expected g0]
    have hg1'keys : ∀ x ∈ g1', x.key = groupKey (e :: g1') :=
      fun x hx => hg1keys x (by simp [hx])
    have hg1'k : ∀ x ∈ g1', x.key = e.key := by
      intro x hx
      rw [hg1'keys x hx, hek]
    have hrun := reduceLoop_run g1' e.key hg1'k
    have hchain' : List.Chain' (fun a b => groupKey a ≠ groupKey b)
        ((e :: g1') :: gs) := (List.chain'_cons.mp hchain).2
    have hmain := ih (e :: g1') (by simp)
      (fun x hx => hg1keys x hx)
      (fun g hg => hgs g (by simp [hg]))
      hchain'
    cases hp : e.posting with
    | none =>
      dsimp only
      rw [hrun [e.uid] [] gs.flatten]
      have h1 : [e.uid] ++ groupUids g1' = groupUids (e :: g1') := by
        simp [groupUids, entryUid, hp]
      have h2 : ([] : List Posting) ++ groupPostings g1' =
          groupPostings (e :: g1') := by
        simp [groupPostings, hp]
      rw [h1, h2, hek, hmain]
      simp
    | some p =>
      dsimp only
      rw [hrun [p.uid] [p] gs.flatten]
      have h1 : [p.uid] ++ groupUids g1' = groupUids (e :: g1') := by
        simp [groupUids, entryUid, hp]
      have h2 : [p] ++ groupPostings g1' = groupPostings (e :: g1') := by
        simp [groupPostings, hp]
      rw [h1, h2, hek, hmain]
      simp

/-- Reduce half of claim C3: on a batch that is the concatenation of
non-empty equal-key runs with pairwise distinct keys, `reduce` emits exactly
one entry per run, with the spec's tag and contents. -/
theorem reduceEntries_groups (groups : List (List MapEntry))
    (hne : groups ≠ [])
    (hgroups : ∀ g ∈ groups, g ≠ [] ∧ ∀ e ∈ g, e.key = groupKey g)
    (hchain : List.Chain' (fun a b => groupKey a ≠ groupKey b) groups) :
    reduceEntries groups.flatten = groups.map expectedReduceEntry := by
  obtain ⟨g0, gs, rfl⟩ := List.exists_cons_of_ne_nil hne
  obtain ⟨hg0ne, hg0keys⟩ := hgroups g0 (by simp)
  obtain ⟨e, g0', rfl⟩ := List.exists_cons_of_ne_nil hg0ne
  have hek : e.key = groupKey (e :: g0') := hg0keys e (by simp)
  unfold reduceEntries
  rw [List.flatten_cons, List.cons_append, reduceLoop]
  have hg0'k : ∀ x ∈ g0', x.key = e.key := by
    intro x hx
    rw [hg0keys x (by simp [hx]), hek]
  have hrun := reduceLoop_run g0' e.key hg0'k
  have hmain := reduceLoop_groups gs (e :: g0') (by simp)
    (fun x hx => hg0keys x hx)
    (fun g hg => hgroups g (by simp [hg]))
    hchain
  cases hp : e.posting with
  | none =>
    dsimp only
    rw [hrun ([] ++ [e.uid]) [] gs.flatten]
    have h1 : ([] ++ [e.uid]) ++ groupUids g0' = groupUids (e :: g0') := by
      simp [groupUids, entryUid, hp]
    have h2 : ([] : List Posting) ++ groupPostings g0' =
        groupPostings (e :: g0') := by
      simp [groupPostings, hp]
    rw [h1, h2, hek, hmain]
    simp
  | some p =>
    dsimp only
    rw [hrun ([] ++ [p.uid]) ([] ++ [p]) gs.flatten]
    have h1 : ([] ++ [p.uid]) ++ groupUids g0' = groupUids (e :: g0') := by
      simp [groupUids, entryUid, hp]
    have h2 : (([] : List Posting) ++ [p]) ++ groupPostings g0' =
        groupPostings (e :: g0') := by
      simp [groupPostings, hp]
    rw [h1, h2, hek, hmain]
    simp

/-! ## Staged posting ingestor and posting-list builder (`pl_builder.go`)

The `x` package (`x.Parse`, `x.CountKey`, `x.ParsedKey`) and `bitPackUids`
are repository code not included under `src/`; `x.Parse` and `x.CountKey`
are passed in as function parameters, and `bitPackUids` is modelled (like
`bp128.DeltaPack`) by the injective `Value.packed` constructor. -/

/-- `binary.BigEndian.PutUint64` (Go standard library): the eight bytes of
`u`, most significant first. Each byte is taken mod 256, which for `u < 2^64`
is exactly the uint64 encoding. -/
def be64 (u : Nat) : List Nat :=
  [u / 2 ^ 56 % 256, u / 2 ^ 48 % 256, u / 2 ^ 40 % 256, u / 2 ^ 32 % 256,
   u / 2 ^ 24 % 256, u / 2 ^ 16 % 256, u / 2 ^ 8 % 256, u % 256]

/-- `binary.BigEndian.Uint64` on an 8-byte slice: the OR of the bytes shifted
into place; for byte-valued entries (each `< 256`, as bytes always are) the
disjoint ORs are sums. -/
def beUint64 (b : List Nat) : Nat :=
  b.getD 7 0 + b.getD 6 0 * 2 ^ 8 + b.getD 5 0 * 2 ^ 16 +
    b.getD 4 0 * 2 ^ 24 + b.getD 3 0 * 2 ^ 32 + b.getD 2 0 * 2 ^ 40 +
    b.getD 1 0 * 2 ^ 48 + b.getD 0 0 * 2 ^ 56

theorem beUint64_be64 {u : Nat} (h : u < 2 ^ 64) : beUint64 (be64 u) = u := by
  unfold be64 beUint64
  simp [List.getD]
  omega

theorem be64_length (u : Nat) : (be64 u).length = 8 := rfl

theorem bytesCompare_cons (a b : Nat) (as bs : List Nat) :
    bytesCompare (a :: as) (b :: bs) =
      if a < b then .lt else if b < a then .gt else bytesCompare as bs := rfl

theorem be64_lt {u1 u2 : Nat} (h1 : u1 < u2) (h2 : u2 < 2 ^ 64) :
    bytesCompare (be64 u1) (be64 u2) = .lt := by
  unfold be64
  rw [bytesCompare_cons]
  by_cases c7 : u1 / 2 ^ 56 % 256 < u2 / 2 ^ 56 % 256
  · rw [if_pos c7]
  have e7 : u1 / 2 ^ 56 % 256 = u2 / 2 ^ 56 % 256 := by omega
  rw [if_neg c7, if_neg (by omega), bytesCompare_cons]
  by_cases c6 : u1 / 2 ^ 48 % 256 < u2 / 2 ^ 48 % 256
  · rw [if_pos c6]
  have e6 : u1 / 2 ^ 48 % 256 = u2 / 2 ^ 48 % 256 := by omega
  rw [if_neg c6, if_neg (by omega), bytesCompare_cons]
  by_cases c5 : u1 / 2 ^ 40 % 256 < u2 / 2 ^ 40 % 256
  · rw [if_pos c5]
  have e5 : u1 / 2 ^ 40 % 256 = u2 / 2 ^ 40 % 256 := by omega
  rw [if_neg c5, if_neg (by omega), bytesCompare_cons]
  by_cases c4 : u1 / 2 ^ 32 % 256 < u2 / 2 ^ 32 % 256
  · rw [if_pos c4]
  have e4 : u1 / 2 ^ 32 % 256 = u2 / 2 ^ 32 % 256 := by omega
  rw [if_neg c4, if_neg (by omega), bytesCompare_cons]
  by_cases c3 : u1 / 2 ^ 24 % 256 < u2 / 2 ^ 24 % 256
  · rw [if_pos c3]
  have e3 : u1 / 2 ^ 24 % 256 = u2 / 2 ^ 24 % 256 := by omega
  rw [if_neg c3, if_neg (by omega), bytesCompare_cons]
  by_cases c2 : u1 / 2 ^ 16 % 256 < u2 / 2 ^ 16 % 256
  · rw [if_pos c2]
  have e2 : u1 / 2 ^ 16 % 256 = u2 / 2 ^ 16 % 256 := by omega
  rw [if_neg c2, if_neg (by omega), bytesCompare_cons]
  by_cases c1 : u1 / 2 ^ 8 % 256 < u2 / 2 ^ 8 % 256
  · rw [if_pos c1]
  have e1 : u1 / 2 ^ 8 % 256 = u2 / 2 ^ 8 % 256 := by omega
  rw [if_neg c1, if_neg (by omega), bytesCompare_cons]
  have c0 : u1 % 256 < u2 % 256 := by omega
  rw [if_pos c0]

theorem bytesCompare_append_left (k a b : List Nat) :
    bytesCompare (k ++ a) (k ++ b) = bytesCompare a b := by
  induction k with
  | nil => rfl
  | cons x xs ih => simp [bytesCompare, ih]

/-- `extractPLKey` (pl_builder.go:178-184): assert the composite key is longer
than 8 bytes (`x.AssertTruef`, fatal — modelled as `none`), then copy its
first `len - 8` bytes. -/
def extractPLKey (kvKey : List Nat) : Option (List Nat) :=
  if kvKey.length > 8 then some (kvKey.take (kvKey.length - 8)) else none

/-- `extractUID` (pl_builder.go:186-188): big-endian decode of the trailing
eight bytes. Slicing `kvKey[len-8:]` panics in Go when the key is shorter
than eight bytes; modelled as `none`. -/
def extractUID (kvKey : List Nat) : Option Nat :=
  if kvKey.length < 8 then none
  else some (beUint64 (kvKey.drop (kvKey.length - 8)))

/-- One record of the auxiliary ordered store: composite key, optional
marshalled posting (Go `nil` value = `none`), one-byte meta tag. -/
structure AuxItem where
  key : List Nat
  val : Option Posting
  meta : Nat
deriving DecidableEq

/-- `addPosting` (pl_builder.go:36-62): compute the composite key
`postingListKey ‖ bigEndian(uid)` and store: REF postings keep a nil value
with meta `0x01`; VALUE postings store their serialized form with the zero
meta; VALUE_LANG (`"values not yet supported"`) and any unknown posting type
hit `x.AssertTruef` — fatal, nothing is stored (`none`). -/
def addPosting (postingListKey : List Nat) (posting : Posting) :
    Option AuxItem :=
  let key := postingListKey ++ be64 posting.uid
  if posting.postingType = Posting_REF then
    some { key := key, val := none, meta := 1 }
  else if posting.postingType = Posting_VALUE then
    some { key := key, val := some posting, meta := 0 }
  else
    none

/-- Modelled from the spec: `x.ParsedKey` (the `x` package is repository code
not under `src/`) — the decomposed view of a record key into attribute name,
entity identifier and the "is this a data key" flag. The parsing function
itself (`x.Parse`) is a parameter wherever it is used. -/
structure ParsedKey where
  attr : List Nat
  uid : Nat
  isData : Bool
deriving DecidableEq

/-- One `target.Set(key, val, meta)` call; `val = none` models Go `nil`. -/
structure TargetWrite where
  key : List Nat
  val : Option Value
  meta : Nat
deriving DecidableEq

/-- The `counts` map (`map[int][]uint64`) as an association list in insertion
order: `counts[cnt] = append(counts[cnt], uid)`. -/
def countsInsert : List (Nat × List Nat) → Nat → Nat → List (Nat × List Nat)
  | [], cnt, uid => [(cnt, [uid])]
  | (c, us) :: rest, cnt, uid =>
    if c = cnt then (c, us ++ [uid]) :: rest
    else (c, us) :: countsInsert rest cnt uid

/-- Go map lookup `counts[i]`: a missing key yields the nil (empty) slice. -/
def lookupCounts : List (Nat × List Nat) → Nat → List Nat
  | [], _ => []
  | (c, us) :: rest, i => if c = i then us else lookupCounts rest i

/-- The count-map flush block of `buildPostingLists` (pl_builder.go:156-170),
with the Go map's unspecified iteration order made explicit as the `order`
argument. `h1` holds `highest + 1` (Go initialises `highest := -1`, so the
top-level call passes `0`). For each map key `cnt` in iteration order, every
count `i` with `highest + 1 ≤ i ≤ cnt` is written under
`x.CountKey(attr, i, false)` (the reverse flag is hardcoded `false`): a
packed-UID-list entry tagged `0x01` when `counts[i]` is non-empty, an
explicit empty entry (nil value, zero tag) otherwise; then `highest = cnt`. -/
def flushCountsLoop (countKey : List Nat → Nat → Bool → List Nat)
    (attr : List Nat) (counts : List (Nat × List Nat)) :
    List Nat → Nat → List TargetWrite
  | [], _ => []
  | cnt :: order, h1 =>
    ((List.range' h1 (cnt + 1 - h1)).map fun i =>
      let pl := lookupCounts counts i
      if pl.length > 0 then
        { key := countKey attr i false, val := some (Value.packed pl),
          meta := 1 }
      else
        { key := countKey attr i false, val := none, meta := 0 }) ++
      flushCountsLoop countKey attr counts order (cnt + 1)

/-- The posting-list finalisation write (pl_builder.go:112-130): with at
least one full posting, the marshalled `protos.PostingList` (postings plus
bit-packed `Uids`) is written with zero meta; otherwise the bit-packed UID
list is written with meta `0x01`. -/
def finalisePL (k : List Nat) (uids : List Nat) (pls : List Posting) :
    TargetWrite :=
  if pls.length > 0 then
    { key := k, val := some (Value.plist pls uids), meta := 0 }
  else
    { key := k, val := some (Value.packed uids), meta := 1 }

/-- The iterator loop of `buildPostingLists` (pl_builder.go:77-175). State:
the current posting-list key `k`, the accumulated `uids` and `pl.Postings`,
and the per-attribute `counts` map. `parse` models `x.Parse`, `countKey`
models `x.CountKey`, and `ss` models `ss.m[attr].GetCount()`. The result
separates the posting-list writes from the count-index writes issued to
`target` (both in issue order); `none` models a fatal assertion. -/
def bplLoop (parse : List Nat → ParsedKey)
    (countKey : List Nat → Nat → Bool → List Nat) (ss : List Nat → Bool)
    (k : List Nat) (uids : List Nat) (pls : List Posting)
    (counts : List (Nat × List Nat)) :
    List AuxItem → Option (List TargetWrite × List TargetWrite)
  | [] => some ([], [])
  | item :: rest =>
    -- add to PL: meta 0x01 recovers the UID from the key; otherwise the
    -- value is unmarshalled into a posting (nil unmarshals to the zero one)
    let step : Option (List Nat × List Posting) :=
      if item.meta = 1 then
        (extractUID item.key).map fun u => (uids ++ [u], pls)
      else
        let p := item.val.getD default
        some (uids ++ [p.uid], pls ++ [p])
    match step with
    | none => none
    | some (uids', pls') =>
      let parsedK := parse k
      match rest with
      | [] =>
        -- iterator exhausted: finalise this list, then flush the counts
        let counts' :=
          if parsedK.isData && ss parsedK.attr then
            countsInsert counts uids'.length parsedK.uid
          else counts
        some ([finalisePL k uids' pls'],
          flushCountsLoop countKey parsedK.attr counts'
            (counts'.map Prod.fst) 0)
      | item2 :: _ =>
        match extractPLKey item2.key with
        | none => none
        | some newK =>
          if newK ≠ k then
            let counts' :=
              if parsedK.isData && ss parsedK.attr then
                countsInsert counts uids'.length parsedK.uid
              else counts
            let parsedNewK := parse newK
            let flushed :=
              if parsedNewK.attr ≠ parsedK.attr then
                (flushCountsLoop countKey parsedK.attr counts'
                  (counts'.map Prod.fst) 0, ([] : List (Nat × List Nat)))
              else (([] : List TargetWrite), counts')
            (bplLoop parse countKey ss newK [] [] flushed.2 rest).map
              fun r => (finalisePL k uids' pls' :: r.1, flushed.1 ++ r.2)
          else
            let parsedNewK := parse newK
            let flushed :=
              if parsedNewK.attr ≠ parsedK.attr then
                (flushCountsLoop countKey parsedK.attr counts
                  (counts.map Prod.fst) 0, ([] : List (Nat × List Nat)))
              else (([] : List TargetWrite), counts)
            (bplLoop parse countKey ss newK uids' pls' flushed.2 rest).map
              fun r => (r.1, flushed.1 ++ r.2)

/-- `buildPostingLists` (pl_builder.go:64-176) over the auxiliary store's
key-ordered contents: seek to the first item, extract its posting-list key,
then run the iterator loop. -/
def buildPostingLists (parse : List Nat → ParsedKey)
    (countKey : List Nat → Nat → Bool → List Nat) (ss : List Nat → Bool)
    (items : List AuxItem) : Option (List TargetWrite × List TargetWrite) :=
  match items with
  | [] => some ([], [])
  | it :: _ =>
    match extractPLKey it.key with
    | none => none
    | some k => bplLoop parse countKey ss k [] [] [] items

/-! ## Claim theorems: staged ingestor key scheme -/

/-- C7: for a posting-list key and a posting whose kind is REF or VALUE, the
staged ingestor stores one record under the composite key
`key ‖ bigEndian8(uid)`; REF postings store a null value with tag `0x01`,
VALUE postings their serialized form with tag `0`. -/
theorem staged_ingest_write (plk : List Nat) (p : Posting) :
    (p.postingType = Posting_REF →
      addPosting plk p =
        some { key := plk ++ be64 p.uid, val := none, meta := 1 }) ∧
    (p.postingType = Posting_VALUE →
      addPosting plk p =
        some { key := plk ++ be64 p.uid, val := some p, meta := 0 }) := by
  constructor
  · intro h
    simp [addPosting, h, Posting_REF]
  · intro h
    simp [addPosting, h, Posting_REF, Posting_VALUE]

/-- C7 witness: a REF posting and a VALUE posting at concrete inputs. -/
theorem staged_ingest_write_witness :
    addPosting [9] ⟨3, 0, []⟩ =
        some { key := [9] ++ be64 3, val := none, meta := 1 } ∧
      addPosting [9] ⟨3, 1, [7]⟩ =
        some { key := [9] ++ be64 3, val := some ⟨3, 1, [7]⟩, meta := 0 } :=
  ⟨(staged_ingest_write [9] ⟨3, 0, []⟩).1 rfl,
   (staged_ingest_write [9] ⟨3, 1, [7]⟩).2 rfl⟩

/-- C8: the staged path's defensive checks are fatal and store nothing:
`addPosting` stores a record exactly when the posting kind is REF or VALUE
(VALUE_LANG and unknown kinds abort via assertion, storing nothing), and
`extractPLKey` aborts via assertion exactly on composite keys of 8 bytes or
fewer. -/
theorem staged_defensive_assertions :
    (∀ (plk : List Nat) (p : Posting),
      addPosting plk p = none ↔
        p.postingType ≠ Posting_REF ∧ p.postingType ≠ Posting_VALUE) ∧
    (∀ kvKey : List Nat, extractPLKey kvKey = none ↔ kvKey.length ≤ 8) := by
  constructor
  · intro plk p
    unfold addPosting
    by_cases h1 : p.postingType = Posting_REF
    · simp [h1, Posting_REF, Posting_VALUE]
    · by_cases h2 : p.postingType = Posting_VALUE
      · simp [h1, h2, Posting_REF, Posting_VALUE]
      · simp [h1, h2]
  · intro kvKey
    unfold extractPLKey
    by_cases h : kvKey.length > 8
    · simp only [h, if_true]
      constructor
      · intro hc
        cases hc
      · omega
    · simp only [h, if_false]
      constructor
      · intro _
        omega
      · intro _
        trivial

/-- C10: the composite-key scheme of the staged ingestor round-trips and
preserves order: for a non-empty posting-list key `k` and 64-bit UIDs,
`extractPLKey (k ‖ be64 u) = k`, `extractUID (k ‖ be64 u) = u`, and for
`u1 < u2` the composite key of `u1` strictly precedes that of `u2` in
byte-lexicographic order — so iterating the auxiliary store yields each
key's entries in ascending UID order. -/
theorem composite_key_roundtrip (k : List Nat) (u u1 u2 : Nat)
    (hk : k ≠ []) (hu : u < 2 ^ 64) (h12 : u1 < u2) (h2 : u2 < 2 ^ 64) :
    extractPLKey (k ++ be64 u) = some k ∧
      extractUID (k ++ be64 u) = some u ∧
      bytesCompare (k ++ be64 u1) (k ++ be64 u2) = .lt := by
  have hlen : (k ++ be64 u).length = k.length + 8 := by
    simp [be64_length]
  have hkpos : 0 < k.length := List.length_pos.mpr hk
  refine ⟨?_, ?_, ?_⟩
  · unfold extractPLKey
    rw [hlen]
    rw [if_pos (by omega)]
    have h8 : k.length + 8 - 8 = k.length := by omega
    rw [h8, List.take_left]
  · unfold extractUID
    rw [hlen]
    rw [if_neg (by omega)]
    have h8 : k.length + 8 - 8 = k.length := by omega
    rw [h8, List.drop_left, beUint64_be64 hu]
  · rw [bytesCompare_append_left]
    exact be64_lt h12 h2

/-- C10 witness: concrete key `[1]` and UIDs 3, 5, 9. -/
theorem composite_key_roundtrip_witness :
    extractPLKey ([1] ++ be64 5) = some [1] ∧
      extractUID ([1] ++ be64 5) = some 5 ∧
      bytesCompare ([1] ++ be64 3) ([1] ++ be64 9) = .lt :=
  composite_key_roundtrip [1] 5 3 9 (by decide) (by decide) (by decide)
    (by decide)

/-! ## Count-index density (claim C4) -/

/-- The count-index write the claim expects for count `i`: a packed-UID-list
entry tagged `1` when count `i` is present in the map, an explicit empty
entry (nil value, tag 0) when absent. -/
def expectedCountWrite (countKey : List Nat → Nat → Bool → List Nat)
    (attr : List Nat) (counts : List (Nat × List Nat)) (i : Nat) :
    TargetWrite :=
  if lookupCounts counts i ≠ [] then
    { key := countKey attr i false,
      val := some (Value.packed (lookupCounts counts i)), meta := 1 }
  else
    { key := countKey attr i false, val := none, meta := 0 }

theorem flushCountsLoop_body (countKey : List Nat → Nat → Bool → List Nat)
    (attr : List Nat) (counts : List (Nat × List Nat)) (i : Nat) :
    (if (lookupCounts counts i).length > 0 then
      ({ key := countKey attr i false,
         val := some (Value.packed (lookupCounts counts i)),
         meta := 1 } : TargetWrite)
    else
      { key := countKey attr i false, val := none, meta := 0 }) =
      expectedCountWrite countKey attr counts i := by
  unfold expectedCountWrite
  by_cases h : lookupCounts counts i = []
  · simp [h]
  · simp [h, List.length_pos.mpr h]

/-- Every count in `[h1, c]` for any map key `c` in the iteration order is
covered by the flush. -/
theorem flushCountsLoop_covers (countKey : List Nat → Nat → Bool → List Nat)
    (attr : List Nat) (counts : List (Nat × List Nat)) :
    ∀ (order : List Nat) (h1 : Nat), ∀ c ∈ order, ∀ i, h1 ≤ i → i ≤ c →
      expectedCountWrite countKey attr counts i ∈
        flushCountsLoop countKey attr counts order h1 := by
  intro order
  induction order with
  | nil => intro h1 c hc; simp at hc
  | cons cnt rest ih =>
    intro h1 c hc i hi1 hic
    rw [flushCountsLoop]
    rw [List.mem_append]
    rcases List.mem_cons.mp hc with rfl | hc'
    · left
      rw [List.mem_map]
      refine ⟨i, ?_, flushCountsLoop_body countKey attr counts i⟩
      rw [List.mem_range'_1]
      omega
    · by_cases hcnt : i ≤ cnt
      · left
        rw [List.mem_map]
        refine ⟨i, ?_, flushCountsLoop_body countKey attr counts i⟩
        rw [List.mem_range'_1]
        omega
      · right
        exact ih (cnt + 1) c hc' i (by omega) hic

/-- Every write the flush emits is the expected write of some count bounded
by a map key in the iteration order. -/
theorem flushCountsLoop_sound (countKey : List Nat → Nat → Bool → List Nat)
    (attr : List Nat) (counts : List (Nat × List Nat)) :
    ∀ (order : List Nat) (h1 : Nat),
      ∀ w ∈ flushCountsLoop countKey attr counts order h1,
        ∃ c ∈ order, ∃ i, i ≤ c ∧
          w = expectedCountWrite countKey attr counts i := by
  intro order
  induction order with
  | nil => intro h1 w hw; simp [flushCountsLoop] at hw
  | cons cnt rest ih =>
    intro h1 w hw
    rw [flushCountsLoop, List.mem_append] at hw
    rcases hw with hw | hw
    · rw [List.mem_map] at hw
      obtain ⟨i, hi, hwi⟩ := hw
      rw [List.mem_range'_1] at hi
      refine ⟨cnt, by simp, i, by omega, ?_⟩
      rw [← hwi, flushCountsLoop_body]
    · obtain ⟨c, hc, i, hic, hwi⟩ := ih (cnt + 1) w hw
      exact ⟨c, by simp [hc], i, hic, hwi⟩

theorem foldr_max_mem (l : List Nat) (hl : l ≠ []) :
    l.foldr max 0 ∈ l := by
  induction l with
  | nil => exact absurd rfl hl
  | cons a rest ih =>
    cases rest with
    | nil => simp
    | cons b rest' =>
      rw [List.foldr_cons]
      rcases Nat.le_total ((b :: rest').foldr max 0) a with h | h
      · rw [Nat.max_eq_left h]; simp
      · rw [Nat.max_eq_right h]
        exact List.mem_cons_of_mem a (ih (by simp))

theorem le_foldr_max (l : List Nat) : ∀ c ∈ l, c ≤ l.foldr max 0 := by
  induction l with
  | nil => intro c hc; simp at hc
  | cons a rest ih =>
    intro c hc
    rw [List.foldr_cons]
    rcases List.mem_cons.mp hc with rfl | hc'
    · exact Nat.le_max_left _ _
    · exact Nat.le_trans (ih c hc') (Nat.le_max_right _ _)

theorem lookupCounts_mem_ne_nil {counts : List (Nat × List Nat)} {i : Nat}
    (hvals : ∀ cv ∈ counts, cv.2 ≠ []) (hmem : i ∈ counts.map Prod.fst) :
    lookupCounts counts i ≠ [] := by
  induction counts with
  | nil => simp at hmem
  | cons cv rest ih =>
    obtain ⟨c, us⟩ := cv
    rw [lookupCounts]
    by_cases h : c = i
    · rw [if_pos h]
      exact hvals (c, us) (by simp)
    · rw [if_neg h]
      rw [List.map_cons] at hmem
      rcases List.mem_cons.mp hmem with h' | h'
      · exact absurd h'.symm h
      · exact ih (fun cv hcv => hvals cv (by simp [hcv])) h'

theorem lookupCounts_not_mem {counts : List (Nat × List Nat)} {i : Nat}
    (hmem : i ∉ counts.map Prod.fst) : lookupCounts counts i = [] := by
  induction counts with
  | nil => rfl
  | cons cv rest ih =>
    obtain ⟨c, us⟩ := cv
    rw [lookupCounts]
    by_cases h : c = i
    · exact absurd (by simp [h]) hmem
    · rw [if_neg h]
      exact ih (fun h' => hmem (by simp [h']))

/-- C4: flushing the count map emits a dense run of count-index entries for
every integer count from 0 up to the maximum observed count — each present
count as a packed-UID-list entry tagged 1, each absent count below the
maximum as an explicit empty entry (nil value, tag 0) — and nothing else,
for EVERY iteration order of the Go map. -/
theorem count_index_dense (countKey : List Nat → Nat → Bool → List Nat)
    (attr : List Nat) (counts : List (Nat × List Nat)) (order : List Nat)
    (hperm : order.Perm (counts.map Prod.fst))
    (hvals : ∀ cv ∈ counts, cv.2 ≠ [])
    (hne : counts ≠ []) :
    (∀ i ≤ (counts.map Prod.fst).foldr max 0,
      expectedCountWrite countKey attr counts i ∈
        flushCountsLoop countKey attr counts order 0) ∧
    (∀ w ∈ flushCountsLoop countKey attr counts order 0,
      ∃ i ≤ (counts.map Prod.fst).foldr max 0,
        w = expectedCountWrite countKey attr counts i) ∧
    (∀ i, (i ∈ counts.map Prod.fst →
        (expectedCountWrite countKey attr counts i).meta = 1 ∧
        (expectedCountWrite countKey attr counts i).val =
          some (Value.packed (lookupCounts counts i))) ∧
      (i ∉ counts.map Prod.fst →
        (expectedCountWrite countKey attr counts i).meta = 0 ∧
        (expectedCountWrite countKey attr counts i).val = none)) := by
  have hkeys_ne : counts.map Prod.fst ≠ [] := by
    intro h
    exact hne (List.map_eq_nil_iff.mp h)
  have hMmem : (counts.map Prod.fst).foldr max 0 ∈ order :=
    hperm.mem_iff.mpr (foldr_max_mem _ hkeys_ne)
  refine ⟨?_, ?_, ?_⟩
  · intro i hi
    exact flushCountsLoop_covers countKey attr counts order 0
      ((counts.map Prod.fst).foldr max 0) hMmem i (Nat.zero_le i) hi
  · intro w hw
    obtain ⟨c, hc, i, hic, hwi⟩ :=
      flushCountsLoop_sound countKey attr counts order 0 w hw
    have hcM : c ≤ (counts.map Prod.fst).foldr max 0 :=
      le_foldr_max _ c (hperm.mem_iff.mp hc)
    exact ⟨i, Nat.le_trans hic hcM, hwi⟩
  · intro i
    constructor
    · intro hmem
      have := lookupCounts_mem_ne_nil hvals hmem
      unfold expectedCountWrite
      rw [if_pos this]
      exact ⟨rfl, rfl⟩
    · intro hmem
      have := lookupCounts_not_mem hmem
      unfold expectedCountWrite
      rw [if_neg (by simp [this])]
      exact ⟨rfl, rfl⟩

/-- C4 witness: observed counts {0, 2, 5} flushed in the adversarial
iteration order 5, 0, 2 still cover counts 0..5, with 1, 3, 4 as explicit
empty entries. -/
theorem count_index_dense_witness :
    (∀ i ≤ (([(0, [7]), (2, [8]), (5, [9])] :
          List (Nat × List Nat)).map Prod.fst).foldr max 0,
      expectedCountWrite (fun a i _ => a ++ [i]) [3]
          [(0, [7]), (2, [8]), (5, [9])] i ∈
        flushCountsLoop (fun a i _ => a ++ [i]) [3]
          [(0, [7]), (2, [8]), (5, [9])] [5, 0, 2] 0) ∧
    (∀ w ∈ flushCountsLoop (fun a i _ => a ++ [i]) [3]
        [(0, [7]), (2, [8]), (5, [9])] [5, 0, 2] 0,
      ∃ i ≤ (([(0, [7]), (2, [8]), (5, [9])] :
          List (Nat × List Nat)).map Prod.fst).foldr max 0,
        w = expectedCountWrite (fun a i _ => a ++ [i]) [3]
          [(0, [7]), (2, [8]), (5, [9])] i) ∧
    (∀ i, (i ∈ (([(0, [7]), (2, [8]), (5, [9])] :
          List (Nat × List Nat)).map Prod.fst) →
        (expectedCountWrite (fun a i _ => a ++ [i]) [3]
          [(0, [7]), (2, [8]), (5, [9])] i).meta = 1 ∧
        (expectedCountWrite (fun a i _ => a ++ [i]) [3]
          [(0, [7]), (2, [8]), (5, [9])] i).val =
          some (Value.packed (lookupCounts [(0, [7]), (2, [8]), (5, [9])] i))) ∧
      (i ∉ (([(0, [7]), (2, [8]), (5, [9])] :
          List (Nat × List Nat)).map Prod.fst) →
        (expectedCountWrite (fun a i _ => a ++ [i]) [3]
          [(0, [7]), (2, [8]), (5, [9])] i).meta = 0 ∧
        (expectedCountWrite (fun a i _ => a ++ [i]) [3]
          [(0, [7]), (2, [8]), (5, [9])] i).val = none)) :=
  count_index_dense (fun a i _ => a ++ [i]) [3]
    [(0, [7]), (2, [8]), (5, [9])] [5, 0, 2] (by decide)
    (by decide) (by decide)

/-! ## Record decoder (`readMapOutput`, reduce.go:37-66)

The shard file is the list of its bytes. `encoding/binary` and `bufio` are
the Go standard library: `binary.Uvarint` and `binary.PutUvarint` are
modelled below; `bufio.Reader.Peek(n)` returns the next `n` bytes, or the
remaining bytes together with `io.EOF` when fewer than `n` remain. -/

/-- `binary.MaxVarintLen64`. -/
def MaxVarintLen64 : Nat := 10

/-- The loop of `binary.Uvarint`: `i` is the byte index, `x` the accumulated
value, `s` the shift (the OR of disjoint bit ranges is written as `+`).
`none` stands for the `n ≤ 0` results (truncated or overflowing varint),
which `readMapOutput` treats as fatal. Bytes are byte-valued (`< 256`). -/
def uvarintAux : List Nat → Nat → Nat → Nat → Option (Nat × Nat)
  | [], _, _, _ => none
  | b :: rest, i, x, s =>
    if i = MaxVarintLen64 then none
    else if b < 0x80 then
      if i = MaxVarintLen64 - 1 ∧ b > 1 then none
      else some (x + b * 2 ^ s, i + 1)
    else uvarintAux rest (i + 1) (x + (b - 0x80) * 2 ^ s) (s + 7)

/-- `binary.Uvarint`: decode an unsigned varint from the front of `buf`,
returning the value and the number of bytes read on success. -/
def uvarint (buf : List Nat) : Option (Nat × Nat) := uvarintAux buf 0 0 0

/-- `binary.PutUvarint` for `u < 2^64`: little-endian 7-bit groups, each
non-final byte carrying the continuation bit `0x80`. -/
def putUvarint (u : Nat) : List Nat :=
  if u < 0x80 then [u] else (u % 0x80 + 0x80) :: putUvarint (u / 0x80)
termination_by u
decreasing_by omega

/-- One shard-file frame: uvarint length header, then the payload bytes (the
serialized `protos.MapEntry`; proto marshalling is external and injective,
so each payload stands for its decoded entry). -/
def encFrame (payload : List Nat) : List Nat :=
  putUvarint payload.length ++ payload

/-- A well-formed shard file: the concatenation of its frames. -/
def encodeFrames (payloads : List (List Nat)) : List Nat :=
  (payloads.map encFrame).flatten

theorem uvarintAux_idx_lt : ∀ (buf : List Nat) (i x s v n : Nat),
    uvarintAux buf i x s = some (v, n) → i < n := by
  intro buf
  induction buf with
  | nil => intro i x s v n h; simp [uvarintAux] at h
  | cons b rest ih =>
    intro i x s v n h
    rw [uvarintAux] at h
    split at h
    · cases h
    · split at h
      · split at h
        · cases h
        · injection h with h'
          injection h' with h1 h2
          omega
      · have := ih (i + 1) _ _ v n h
        omega

/-- `readMapOutput` (reduce.go:37-66) as a function of the shard file's
bytes, returning the payloads delivered on `mapEntryCh` in order. Each
iteration peeks `MaxVarintLen64` bytes; when fewer remain, `Peek` reports
`io.EOF` and the loop breaks (closing the channel) — even if the remaining
bytes hold complete frames. A bad varint (`n ≤ 0`) or a short `ReadFull` is
fatal (`none`). The `unmarshalBuf` growth affects only allocation. -/
def readMapOutput (file : List Nat) : Option (List (List Nat)) :=
  if file.length < MaxVarintLen64 then some []
  else
    match h : uvarint (file.take MaxVarintLen64) with
    | none => none
    | some (sz, n) =>
      let rest := file.drop n
      if rest.length < sz then none
      else
        match readMapOutput (rest.drop sz) with
        | none => none
        | some ps => some (rest.take sz :: ps)
termination_by file.length
decreasing_by
  have hn : 0 < n := by
    have := uvarintAux_idx_lt (file.take MaxVarintLen64) 0 0 0 sz n h
    omega
  have h10 : MaxVarintLen64 = 10 := rfl
  simp only [List.length_drop]
  omega

theorem putUvarint_length_le : ∀ (k u : Nat), u < 2 ^ (7 * (k + 1)) →
    (putUvarint u).length ≤ k + 1 := by
  intro k
  induction k with
  | zero =>
    intro u hu
    rw [putUvarint, if_pos (by norm_num at hu ⊢; omega)]
    simp
  | succ k ih =>
    intro u hu
    rw [putUvarint]
    by_cases h : u < 0x80
    · rw [if_pos h]; simp
    · rw [if_neg h]
      rw [List.length_cons]
      have hdiv : u / 0x80 < 2 ^ (7 * (k + 1)) := by
        rw [Nat.div_lt_iff_lt_mul (by norm_num : 0 < 0x80)]
        have hexp : 2 ^ (7 * (k + 1)) * 0x80 = 2 ^ (7 * (k + 2)) := by
          rw [show (0x80 : Nat) = 2 ^ 7 by norm_num, ← pow_add]
          congr 1
        rw [hexp]
        exact hu
      exact Nat.succ_le_succ (ih (u / 0x80) hdiv)

theorem putUvarint_length_le_ten {u : Nat} (h : u < 2 ^ 64) :
    (putUvarint u).length ≤ 10 := by
  have : u < 2 ^ (7 * 10) := lt_of_lt_of_le h (Nat.pow_le_pow_right
    (by norm_num) (by norm_num))
  exact putUvarint_length_le 9 u this

theorem uvarintAux_put : ∀ (u i x s : Nat) (extra : List Nat),
    s = 7 * i → i ≤ 9 → u < 2 ^ (64 - 7 * i) →
    uvarintAux (putUvarint u ++ extra) i x s =
      some (x + u * 2 ^ s, i + (putUvarint u).length) := by
  intro u
  induction u using Nat.strong_induction_on with
  | _ u ih =>
    intro i x s extra hs hi hu
    by_cases h : u < 0x80
    · rw [putUvarint, if_pos h]
      rw [List.singleton_append, uvarintAux]
      rw [if_neg (by unfold MaxVarintLen64; omega)]
      rw [if_pos h]
      have hguard : ¬(i = MaxVarintLen64 - 1 ∧ u > 1) := by
        unfold MaxVarintLen64
        intro hcon
        have h9 : i = 9 := by omega
        rw [h9] at hu
        norm_num at hu
        omega
      rw [if_neg hguard]
      simp
    · rw [putUvarint, if_neg h]
      rw [List.cons_append, uvarintAux]
      rw [if_neg (by unfold MaxVarintLen64; omega)]
      rw [if_neg (by omega)]
      have hi8 : i ≤ 8 := by
        by_contra hcon
        have h9 : i = 9 := by omega
        rw [h9] at hu
        norm_num at hu
        omega
      have hdiv : u / 0x80 < 2 ^ (64 - 7 * (i + 1)) := by
        rw [Nat.div_lt_iff_lt_mul (by norm_num : 0 < 0x80)]
        have hexp : 2 ^ (64 - 7 * (i + 1)) * 0x80 = 2 ^ (64 - 7 * i) := by
          rw [show (0x80 : Nat) = 2 ^ 7 by norm_num, ← pow_add]
          congr 1
          omega
        rw [hexp]
        exact hu
      rw [ih (u / 0x80) (Nat.div_lt_self (by omega) (by norm_num)) (i + 1)
        (x + (u % 0x80 + 0x80 - 0x80) * 2 ^ s) (s + 7) extra (by omega)
        (by omega) hdiv]
      have harith : x + (u % 0x80 + 0x80 - 0x80) * 2 ^ s +
          u / 0x80 * 2 ^ (s + 7) = x + u * 2 ^ s := by
        have h1 : (2 : Nat) ^ (s + 7) = 2 ^ s * 0x80 := by
          rw [pow_add]; norm_num
        have h2 : u % 0x80 + 0x80 - 0x80 = u % 0x80 := by omega
        have h3 : u = 0x80 * (u / 0x80) + u % 0x80 :=
          (Nat.div_add_mod u 0x80).symm
        rw [h1, h2]
        conv_rhs => rw [h3]
        ring
      rw [harith, List.length_cons]
      congr 2
      omega

theorem uvarint_put (u : Nat) (h : u < 2 ^ 64) (extra : List Nat) :
    uvarint (putUvarint u ++ extra) =
      some (u, (putUvarint u).length) := by
  have := uvarintAux_put u 0 0 0 extra rfl (by omega) (by simpa using h)
  simpa [uvarint] using this

theorem encodeFrames_cons (p : List Nat) (ps : List (List Nat)) :
    encodeFrames (p :: ps) = encFrame p ++ encodeFrames ps := by
  simp [encodeFrames]

theorem le_encodeFrames_length :
    ∀ (payloads : List (List Nat)) (lastP : List Nat),
      payloads.getLast? = some lastP →
      (encFrame lastP).length ≤ (encodeFrames payloads).length := by
  intro payloads
  induction payloads with
  | nil => intro lastP h; simp at h
  | cons p rest ih =>
    intro lastP h
    cases rest with
    | nil =>
      simp at h
      subst h
      simp [encodeFrames_cons, encodeFrames]
    | cons q rest' =>
      rw [List.getLast?_cons_cons] at h
      rw [encodeFrames_cons, List.length_append]
      exact Nat.le_trans (ih lastP h) (Nat.le_add_left _ _)

theorem readMapOutput_step (file : List Nat) (sz n : Nat)
    (h10 : ¬ file.length < MaxVarintLen64)
    (hu : uvarint (file.take MaxVarintLen64) = some (sz, n))
    (hsz : ¬ (file.drop n).length < sz) :
    readMapOutput file =
      match readMapOutput ((file.drop n).drop sz) with
      | none => none
      | some ps => some ((file.drop n).take sz :: ps) := by
  rw [readMapOutput, if_neg h10]
  split
  · rename_i heq
    rw [hu] at heq
    cases heq
  · rename_i sz' n' heq
    rw [hu] at heq
    injection heq with heq'
    injection heq' with h1 h2
    subst h1
    subst h2
    dsimp only
    rw [if_neg hsz]

/-! ## Claim theorems: record decoder -/

/-- C5 (counterexample): a well-formed single-frame file whose total size is
below `MaxVarintLen64` — the frame `[3] ++ [0,0,0]` — is decoded to NO
entries: `bufio`'s `Peek(10)` returns the 4 remaining bytes with `io.EOF`,
and the loop breaks, silently dropping the complete trailing frame. The
claim says every frame is emitted. -/
theorem decoder_drops_short_tail :
    encodeFrames [[0, 0, 0]] = [3, 0, 0, 0] ∧
      readMapOutput [3, 0, 0, 0] = some [] ∧
      ([] : List (List Nat)) ≠ [[0, 0, 0]] := by
  refine ⟨?_, ?_, by simp⟩
  · simp [encodeFrames, encFrame, putUvarint]
  · rw [readMapOutput]
    simp [MaxVarintLen64]

/-- C5 (amended): the decoder emits one Entry per frame, in file order,
closing the channel at end-of-file, PROVIDED at least `MaxVarintLen64` (10)
bytes remain at the start of every frame — equivalently, the final frame's
encoded size is at least 10 bytes. (Frames that begin within the last 9
bytes of the file are silently dropped, because the loop treats `Peek`'s
short read at EOF as end-of-input.) Payload lengths are below `2^64` as
`PutUvarint` takes a `uint64`. -/
theorem decoder_emits_frames (payloads : List (List Nat))
    (hsz : ∀ p ∈ payloads, p.length < 2 ^ 64)
    (hlast : ∀ lastP, payloads.getLast? = some lastP →
      10 ≤ (encFrame lastP).length) :
    readMapOutput (encodeFrames payloads) = some payloads := by
  induction payloads with
  | nil =>
    rw [readMapOutput]
    rw [if_pos (by simp [encodeFrames, MaxVarintLen64])]
  | cons p rest ih =>
    obtain ⟨lastP, hlastP⟩ := Option.isSome_iff_exists.mp
      (List.getLast?_isSome.mpr (by simp : (p :: rest) ≠ []))
    have h10frame : 10 ≤ (encFrame lastP).length := hlast lastP hlastP
    have hfilelen : 10 ≤ (encodeFrames (p :: rest)).length :=
      Nat.le_trans h10frame (le_encodeFrames_length _ _ hlastP)
    have hL : (putUvarint p.length).length ≤ 10 :=
      putUvarint_length_le_ten (hsz p (by simp))
    rw [encodeFrames_cons] at hfilelen ⊢
    have hassoc : encFrame p ++ encodeFrames rest =
        putUvarint p.length ++ (p ++ encodeFrames rest) := by
      rw [encFrame, List.append_assoc]
    have htake : (encFrame p ++ encodeFrames rest).take MaxVarintLen64 =
        putUvarint p.length ++
          ((p ++ encodeFrames rest).take
            (MaxVarintLen64 - (putUvarint p.length).length)) := by
      rw [hassoc, List.take_append_eq_append_take,
        List.take_of_length_le (by unfold MaxVarintLen64; omega)]
    have huv : uvarint ((encFrame p ++ encodeFrames rest).take
        MaxVarintLen64) = some (p.length, (putUvarint p.length).length) := by
      rw [htake]
      exact uvarint_put p.length (hsz p (by simp)) _
    have hdrop : (encFrame p ++ encodeFrames rest).drop
        (putUvarint p.length).length = p ++ encodeFrames rest := by
      rw [hassoc, List.drop_left]
    rw [readMapOutput_step _ p.length (putUvarint p.length).length
      (by unfold MaxVarintLen64; omega) huv (by rw [hdrop]; simp)]
    rw [hdrop, List.take_left, List.drop_left]
    have hlast' : ∀ lp, rest.getLast? = some lp →
        10 ≤ (encFrame lp).length := by
      intro lp hlp
      apply hlast
      cases rest with
      | nil => simp at hlp
      | cons q r => rw [List.getLast?_cons_cons]; exact hlp
    rw [ih (fun q hq => hsz q (by simp [hq])) hlast']

/-- C5 witness: a single 9-byte payload (10-byte frame) decodes to itself. -/
theorem decoder_emits_frames_witness :
    readMapOutput (encodeFrames [[1, 2, 3, 4, 5, 6, 7, 8, 9]]) =
      some [[1, 2, 3, 4, 5, 6, 7, 8, 9]] :=
  decoder_emits_frames [[1, 2, 3, 4, 5, 6, 7, 8, 9]]
    (by simp)
    (by
      intro lastP hlp
      simp only [List.getLast?_singleton, Option.some.injEq] at hlp
      subst hlp
      simp [encFrame, putUvarint])

/-! ## Write concurrency gate (claim C9, reduce.go:187-204)

The asynchronous write path is modelled as a transition system over the
interleavings of the reduce workers and badger's completion callbacks. The
buffered channel `pendingBadgerWrites` (created with capacity `cap` by the
caller, outside these files) is a counting semaphore: a send
(`pendingBadgerWrites <- struct{}{}`) blocks unless fewer than `cap` tokens
are buffered, a receive (`<-pendingBadgerWrites`) removes one token. -/

/-- Gate state: `chanLen` tokens buffered in `pendingBadgerWrites`,
`acquired` workers holding a token but not yet past `kv.BatchSetAsync`, and
`outstanding` issued but unacknowledged write batches. -/
structure GateState where
  chanLen : Nat
  acquired : Nat
  outstanding : Nat
deriving DecidableEq

/-- One interleaving step of `reduce`'s write path: a worker sends on the
channel before issuing (`acquire`); a worker whose send completed calls
`kv.BatchSetAsync`, making its batch outstanding (`issue`); a completion
callback acknowledges a batch and then receives from the channel
(`complete`, the callback's last statement). -/
inductive GateStep (cap : Nat) : GateState → GateState → Prop
  | acquire {s : GateState} (h : s.chanLen < cap) :
      GateStep cap s ⟨s.chanLen + 1, s.acquired + 1, s.outstanding⟩
  | issue {s : GateState} (h : 0 < s.acquired) :
      GateStep cap s ⟨s.chanLen, s.acquired - 1, s.outstanding + 1⟩
  | complete {s : GateState} (h : 0 < s.outstanding) :
      GateStep cap s ⟨s.chanLen - 1, s.acquired, s.outstanding - 1⟩

/-- States reachable from the idle state (empty channel, nothing issued). -/
inductive GateReachable (cap : Nat) : GateState → Prop
  | init : GateReachable cap ⟨0, 0, 0⟩
  | step {s t : GateState} : GateReachable cap s → GateStep cap s t →
      GateReachable cap t

theorem gate_invariant {cap : Nat} {s : GateState}
    (h : GateReachable cap s) :
    s.acquired + s.outstanding ≤ s.chanLen ∧ s.chanLen ≤ cap := by
  induction h with
  | init => exact ⟨Nat.le_refl 0, Nat.zero_le cap⟩
  | step _ hstep ih =>
    cases hstep with
    | acquire h => exact ⟨by simp; omega, by simp; omega⟩
    | issue h => exact ⟨by simp; omega, by simp; omega⟩
    | complete h => exact ⟨by simp; omega, by simp; omega⟩

/-- C9: in every execution of the reduce stage, the number of asynchronous
write batches outstanding at once never exceeds the gate capacity `cap`: a
channel slot is acquired before each `BatchSetAsync` and released only in
that batch's completion callback, so `outstanding ≤ chanLen ≤ cap` in every
reachable state. -/
theorem gate_bounds_outstanding (cap : Nat) (s : GateState)
    (h : GateReachable cap s) : s.outstanding ≤ cap := by
  obtain ⟨h1, h2⟩ := gate_invariant h
  omega

/-- C9 witness: with capacity 2, the state after one acquire and one issue
(one batch outstanding) respects the bound. -/
theorem gate_bounds_outstanding_witness :
    (⟨1, 0, 1⟩ : GateState).outstanding ≤ 2 :=
  gate_bounds_outstanding 2 ⟨1, 0, 1⟩
    (GateReachable.step
      (GateReachable.step GateReachable.init
        (GateStep.acquire (by decide)))
      (GateStep.issue (by decide)))

/-! ## Posting-list finalizer grouped behaviour (builder half of claim C3) -/

/-- The UID one auxiliary item contributes: recovered from the key suffix
for meta `0x01` items, from the unmarshalled posting otherwise. -/
def itemUid (it : AuxItem) : Nat :=
  if it.meta = 1 then beUint64 (it.key.drop (it.key.length - 8))
  else (it.val.getD default).uid

/-- All UIDs a run of auxiliary items contributes, in iteration order. -/
def auxUids (g : List AuxItem) : List Nat := g.map itemUid

/-- The full postings of a run of auxiliary items, in iteration order. -/
def auxPostings (g : List AuxItem) : List Posting :=
  g.filterMap fun it =>
    if it.meta = 1 then none else some (it.val.getD default)

/-- What claim C3 says the staged finalizer must persist for one
posting-list key: zero full postings → packed UID list tagged 1; at least
one → the marshalled posting list holding exactly the full postings and the
packed sequence of all UIDs, tagged 0. -/
def expectedPLWrite (plk : List Nat) (g : List AuxItem) : TargetWrite :=
  if auxPostings g = [] then
    { key := plk, val := some (Value.packed (auxUids g)), meta := 1 }
  else
    { key := plk, val := some (Value.plist (auxPostings g) (auxUids g)),
      meta := 0 }

/-- The conditional count-map update at finalisation (pl_builder.go:132-135). -/
def countsUpdate (parse : List Nat → ParsedKey) (ss : List Nat → Bool)
    (k : List Nat) (counts : List (Nat × List Nat)) (cnt : Nat) :
    List (Nat × List Nat) :=
  if (parse k).isData && ss (parse k).attr then
    countsInsert counts cnt (parse k).uid
  else counts

/-- The attribute-boundary flush decision (pl_builder.go:150-172). -/
def flushDecision (parse : List Nat → ParsedKey)
    (countKey : List Nat → Nat → Bool → List Nat) (k newK : List Nat)
    (counts : List (Nat × List Nat)) :
    List TargetWrite × List (Nat × List Nat) :=
  if (parse newK).attr ≠ (parse k).attr then
    (flushCountsLoop countKey (parse k).attr counts (counts.map Prod.fst) 0,
      [])
  else ([], counts)

theorem extractPLKey_length {it : AuxItem} {k : List Nat}
    (hk : extractPLKey it.key = some k) : it.key.length > 8 := by
  unfold extractPLKey at hk
  split at hk
  · assumption
  · cases hk

theorem extractUID_of_extractPLKey {it : AuxItem} {k : List Nat}
    (hk : extractPLKey it.key = some k) :
    extractUID it.key =
      some (beUint64 (it.key.drop (it.key.length - 8))) := by
  have := extractPLKey_length hk
  unfold extractUID
  rw [if_neg (by omega)]

theorem finalisePL_expected (k : List Nat) (g : List AuxItem) :
    finalisePL k (auxUids g) (auxPostings g) = expectedPLWrite k g := by
  unfold finalisePL expectedPLWrite
  by_cases h : auxPostings g = []
  · simp [h]
  · rw [if_pos (List.length_pos.mpr h), if_neg h]

theorem auxUids_cons (it : AuxItem) (g : List AuxItem) :
    auxUids (it :: g) = itemUid it :: auxUids g := rfl

theorem auxPostings_cons (it : AuxItem) (g : List AuxItem) :
    auxPostings (it :: g) =
      (if it.meta = 1 then [] else [it.val.getD default]) ++ auxPostings g := by
  unfold auxPostings
  by_cases h : it.meta = 1
  · simp [List.filterMap_cons, h]
  · simp [List.filterMap_cons, h]

/-- Consuming the final group: the iterator is exhausted after it, so the
loop finalises the list and flushes the count map. -/
theorem bplLoop_last_group (parse : List Nat → ParsedKey)
    (countKey : List Nat → Nat → Bool → List Nat) (ss : List Nat → Bool)
    (k : List Nat) :
    ∀ (g : List AuxItem), g ≠ [] →
      (∀ it ∈ g, extractPLKey it.key = some k) →
      ∀ (uids : List Nat) (pls : List Posting)
        (counts : List (Nat × List Nat)),
      bplLoop parse countKey ss k uids pls counts g =
        some ([finalisePL k (uids ++ auxUids g) (pls ++ auxPostings g)],
          flushCountsLoop countKey (parse k).attr
            (countsUpdate parse ss k counts (uids ++ auxUids g).length)
            ((countsUpdate parse ss k counts
              (uids ++ auxUids g).length).map Prod.fst) 0) := by
  intro g
  induction g with
  | nil => intro h; exact absurd rfl h
  | cons it g' ih =>
    intro _ hkeys uids pls counts
    have hit : extractPLKey it.key = some k := hkeys it (by simp)
    rw [bplLoop]
    by_cases hmeta : it.meta = 1
    · rw [if_pos hmeta, extractUID_of_extractPLKey hit]
      simp only [Option.map_some']
      cases g' with
      | nil =>
        simp [auxUids, auxPostings, itemUid, hmeta, countsUpdate]
      | cons it2 t2 =>
        have hit2 : extractPLKey it2.key = some k := hkeys it2 (by simp)
        dsimp only
        rw [hit2]
        dsimp only
        rw [if_neg (by simp), if_neg (by simp)]
        dsimp only
        rw [ih (by simp) (fun x hx => hkeys x (by simp [hx]))
          (uids ++ [beUint64 (it.key.drop (it.key.length - 8))]) pls counts]
        simp only [Option.map_some']
        simp [auxUids, auxPostings, itemUid, hmeta]
    · rw [if_neg hmeta]
      dsimp only
      cases g' with
      | nil =>
        simp [auxUids, auxPostings, itemUid, hmeta, countsUpdate]
      | cons it2 t2 =>
        have hit2 : extractPLKey it2.key = some k := hkeys it2 (by simp)
        dsimp only
        rw [hit2]
        dsimp only
        rw [if_neg (by simp), if_neg (by simp)]
        dsimp only
        rw [ih (by simp) (fun x hx => hkeys x (by simp [hx]))
          (uids ++ [(it.val.getD default).uid])
          (pls ++ [it.val.getD default]) counts]
        simp only [Option.map_some']
        simp [auxUids, auxPostings, itemUid, hmeta]
/-- Consuming a non-final group: the lookahead sees the next group's (and so
a different) posting-list key after the group's last item, so the loop
finalises the current list, applies the attribute-boundary flush decision,
and continues with the next group's items. -/
theorem bplLoop_mid_group (parse : List Nat → ParsedKey)
    (countKey : List Nat → Nat → Bool → List Nat) (ss : List Nat → Bool)
    (k k2 : List Nat) (hkk : k2 ≠ k) :
    ∀ (g : List AuxItem), g ≠ [] →
      (∀ it ∈ g, extractPLKey it.key = some k) →
      ∀ (it2 : AuxItem) (t2 : List AuxItem),
        extractPLKey it2.key = some k2 →
      ∀ (uids : List Nat) (pls : List Posting)
        (counts : List (Nat × List Nat)),
      bplLoop parse countKey ss k uids pls counts (g ++ it2 :: t2) =
        (bplLoop parse countKey ss k2 [] []
            (flushDecision parse countKey k k2
              (countsUpdate parse ss k counts
                (uids ++ auxUids g).length)).2 (it2 :: t2)).map
          fun r =>
            (finalisePL k (uids ++ auxUids g) (pls ++ auxPostings g) :: r.1,
              (flushDecision parse countKey k k2
                (countsUpdate parse ss k counts
                  (uids ++ auxUids g).length)).1 ++ r.2) := by
  intro g
  induction g with
  | nil => intro h; exact absurd rfl h
  | cons it g' ih =>
    intro _ hkeys it2 t2 hit2 uids pls counts
    have hit : extractPLKey it.key = some k := hkeys it (by simp)
    rw [List.cons_append, bplLoop]
    by_cases hmeta : it.meta = 1
    · rw [if_pos hmeta, extractUID_of_extractPLKey hit]
      simp only [Option.map_some']
      cases g' with
      | nil =>
        dsimp only [List.nil_append]
        rw [hit2]
        dsimp only
        rw [if_pos hkk]
        simp [flushDecision, countsUpdate, auxUids, auxPostings, itemUid,
          hmeta, Function.comp_def]
      | cons it3 t3 =>
        have hit3 : extractPLKey it3.key = some k := hkeys it3 (by simp)
        dsimp only [List.cons_append]
        rw [hit3]
        dsimp only
        rw [if_neg (by simp), if_neg (by simp)]
        dsimp only
        rw [show it3 :: (t3 ++ it2 :: t2) = (it3 :: t3) ++ it2 :: t2 from
          rfl]
        rw [ih (by simp) (fun x hx => hkeys x (by simp [hx])) it2 t2 hit2
          (uids ++ [beUint64 (it.key.drop (it.key.length - 8))]) pls counts]
        simp [flushDecision, countsUpdate, auxUids, auxPostings, itemUid,
          hmeta, Function.comp_def]
    · rw [if_neg hmeta]
      dsimp only
      cases g' with
      | nil =>
        dsimp only [List.nil_append]
        rw [hit2]
        dsimp only
        rw [if_pos hkk]
        simp [flushDecision, countsUpdate, auxUids, auxPostings, itemUid,
          hmeta, Function.comp_def]
      | cons it3 t3 =>
        have hit3 : extractPLKey it3.key = some k := hkeys it3 (by simp)
        dsimp only [List.cons_append]
        rw [hit3]
        dsimp only
        rw [if_neg (by simp), if_neg (by simp)]
        dsimp only
        rw [show it3 :: (t3 ++ it2 :: t2) = (it3 :: t3) ++ it2 :: t2 from
          rfl]
        rw [ih (by simp) (fun x hx => hkeys x (by simp [hx])) it2 t2 hit2
          (uids ++ [(it.val.getD default).uid])
          (pls ++ [it.val.getD default]) counts]
        simp [flushDecision, countsUpdate, auxUids, auxPostings, itemUid,
          hmeta, Function.comp_def]

/-- Spine of the builder proof: with the iterator positioned on group
`(k, g)` and the remaining groups to follow, exactly one finalisation write
is produced per group. The count-index writes `cw` are tracked by claim C4
separately. -/
theorem bplLoop_spine (parse : List Nat → ParsedKey)
    (countKey : List Nat → Nat → Bool → List Nat) (ss : List Nat → Bool) :
    ∀ (groups : List (List Nat × List AuxItem)) (k : List Nat)
      (g : List AuxItem) (uids : List Nat) (pls : List Posting)
      (counts : List (Nat × List Nat)),
      g ≠ [] → (∀ it ∈ g, extractPLKey it.key = some k) →
      (∀ gr ∈ groups, gr.2 ≠ [] ∧
        ∀ it ∈ gr.2, extractPLKey it.key = some gr.1) →
      List.Chain' (fun a b => a.1 ≠ b.1) ((k, g) :: groups) →
      ∃ cw, bplLoop parse countKey ss k uids pls counts
          (g ++ (groups.map Prod.snd).flatten) =
        some (finalisePL k (uids ++ auxUids g) (pls ++ auxPostings g) ::
          groups.map (fun gr => expectedPLWrite gr.1 gr.2), cw) := by
  intro groups
  induction groups with
  | nil =>
    intro k g uids pls counts hne hkeys _ _
    rw [List.map_nil, List.flatten_nil, List.append_nil]
    exact ⟨_, bplLoop_last_group parse countKey ss k g hne hkeys uids pls
      counts⟩
  | cons gr1 grs ih =>
    intro k g uids pls counts hne hkeys hgrs hchain
    obtain ⟨k1, g1⟩ := gr1
    obtain ⟨hg1ne, hg1keys⟩ := hgrs (k1, g1) (by simp)
    obtain ⟨it2, t2, rfl⟩ := List.exists_cons_of_ne_nil hg1ne
    have hk1k : k1 ≠ k := by
      have := (List.chain'_cons.mp hchain).1
      exact fun hEq => this hEq.symm
    have hit2 : extractPLKey it2.key = some k1 := hg1keys it2 (by simp)
    have hflat : g ++ ((((k1, it2 :: t2) :: grs).map Prod.snd).flatten) =
        g ++ it2 :: (t2 ++ ((grs.map Prod.snd).flatten)) := by
      simp
    rw [hflat]
    rw [bplLoop_mid_group parse countKey ss k k1 hk1k g hne hkeys it2
      (t2 ++ (grs.map Prod.snd).flatten) hit2 uids pls counts]
    have hrest : it2 :: (t2 ++ (grs.map Prod.snd).flatten) =
        (it2 :: t2) ++ (grs.map Prod.snd).flatten := rfl
    rw [hrest]
    obtain ⟨cw', hcw'⟩ := ih k1 (it2 :: t2) [] []
      (flushDecision parse countKey k k1
        (countsUpdate parse ss k counts (uids ++ auxUids g).length)).2
      (by simp) hg1keys (fun x hx => hgrs x (by simp [hx]))
      (List.chain'_cons.mp hchain).2
    rw [hcw']
    refine ⟨(flushDecision parse countKey k k1
      (countsUpdate parse ss k counts (uids ++ auxUids g).length)).1 ++ cw',
      ?_⟩
    rw [Option.map_some']
    simp only [List.nil_append, List.map_cons]
    rw [finalisePL_expected]

/-- Builder half of claim C3: over an auxiliary store laid out as
consecutive composite-key groups (non-empty, each sharing one extractable
posting-list key, adjacent groups with distinct keys), `buildPostingLists`
issues exactly one posting-list write per group, with the claimed tag and
contents. -/
theorem buildPostingLists_groups (parse : List Nat → ParsedKey)
    (countKey : List Nat → Nat → Bool → List Nat) (ss : List Nat → Bool)
    (groups : List (List Nat × List AuxItem))
    (hne : groups ≠ [])
    (hgr : ∀ gr ∈ groups, gr.2 ≠ [] ∧
      ∀ it ∈ gr.2, extractPLKey it.key = some gr.1)
    (hchain : List.Chain' (fun a b => a.1 ≠ b.1) groups) :
    ∃ cw, buildPostingLists parse countKey ss
        ((groups.map Prod.snd).flatten) =
      some (groups.map (fun gr => expectedPLWrite gr.1 gr.2), cw) := by
  obtain ⟨gr0, grs, rfl⟩ := List.exists_cons_of_ne_nil hne
  obtain ⟨k0, g0⟩ := gr0
  obtain ⟨hg0ne, hg0keys⟩ := hgr (k0, g0) (by simp)
  obtain ⟨it0, t0, rfl⟩ := List.exists_cons_of_ne_nil hg0ne
  have hit0 : extractPLKey it0.key = some k0 := hg0keys it0 (by simp)
  obtain ⟨cw, hcw⟩ := bplLoop_spine parse countKey ss grs k0 (it0 :: t0)
    [] [] [] (by simp) hg0keys (fun x hx => hgr x (by simp [hx])) hchain
  refine ⟨cw, ?_⟩
  have hflat : (((k0, it0 :: t0) :: grs).map Prod.snd).flatten =
      it0 :: (t0 ++ (grs.map Prod.snd).flatten) := by simp
  rw [hflat]
  rw [buildPostingLists]
  rw [hit0]
  dsimp only
  rw [← List.cons_append, hcw]
  simp only [List.nil_append, List.map_cons]
  rw [finalisePL_expected]

/-! ## Claim theorem C3: one write per key, tag by value-bearing entries -/

/-- C3: for every key processed by the reduce step — and equally by the
staged finalizer — exactly one write is produced, and its tag is decided by
the presence of value-bearing entries. Reduce half: on a batch that is a
concatenation of non-empty equal-key runs with pairwise-distinct keys, the
emitted `badger.Entry` list is exactly one expected entry per run: tag
`0x01` with the delta-packed UID sequence when the run has no value-bearing
entries, else tag `0` with the marshalled posting list holding exactly the
value-bearing postings and the packed sequence of all observed UIDs.
Finalizer half (`buildPostingLists`): on an auxiliary store laid out as
consecutive non-empty composite-key groups with pairwise-distinct
posting-list keys, exactly one posting-list write per group is issued, with
the same tag rule (meta `0x01` + packed UIDs / meta `0` + marshalled list). -/
theorem per_key_single_write (groups : List (List MapEntry))
    (parse : List Nat → ParsedKey)
    (countKey : List Nat → Nat → Bool → List Nat) (ss : List Nat → Bool)
    (bgroups : List (List Nat × List AuxItem))
    (hne : groups ≠ [])
    (hgroups : ∀ g ∈ groups, g ≠ [] ∧ ∀ e ∈ g, e.key = groupKey g)
    (hdist : List.Pairwise (fun a b => groupKey a ≠ groupKey b) groups)
    (hbne : bgroups ≠ [])
    (hbgr : ∀ gr ∈ bgroups, gr.2 ≠ [] ∧
      ∀ it ∈ gr.2, extractPLKey it.key = some gr.1)
    (hbdist : List.Pairwise (fun a b => a.1 ≠ b.1) bgroups) :
    reduceEntries groups.flatten = groups.map expectedReduceEntry ∧
      ∃ cw, buildPostingLists parse countKey ss
          ((bgroups.map Prod.snd).flatten) =
        some (bgroups.map (fun gr => expectedPLWrite gr.1 gr.2), cw) :=
  ⟨reduceEntries_groups groups hne hgroups hdist.chain',
   buildPostingLists_groups parse countKey ss bgroups hbne hbgr
     hbdist.chain'⟩

/-- C3 witness: a two-run batch (one reference-only run, one with a
value-bearing entry) and a two-group auxiliary store. -/
theorem per_key_single_write_witness :
    reduceEntries
        ([[⟨[1], 4, none⟩, ⟨[1], 5, none⟩],
          [⟨[2], 6, some ⟨6, 1, [9]⟩⟩]] :
            List (List MapEntry)).flatten =
      ([[⟨[1], 4, none⟩, ⟨[1], 5, none⟩],
        [⟨[2], 6, some ⟨6, 1, [9]⟩⟩]] :
          List (List MapEntry)).map expectedReduceEntry ∧
    ∃ cw, buildPostingLists (fun k => ⟨k, 0, false⟩) (fun a i _ => a ++ [i])
        (fun _ => false)
        ((([([1], [⟨[1] ++ be64 4, none, 1⟩]),
            ([2], [⟨[2] ++ be64 6, some ⟨6, 1, [9]⟩, 0⟩])] :
              List (List Nat × List AuxItem)).map Prod.snd).flatten) =
      some ((([([1], [⟨[1] ++ be64 4, none, 1⟩]),
          ([2], [⟨[2] ++ be64 6, some ⟨6, 1, [9]⟩, 0⟩])] :
            List (List Nat × List AuxItem)).map
          (fun gr => expectedPLWrite gr.1 gr.2)), cw) :=
  per_key_single_write
    [[⟨[1], 4, none⟩, ⟨[1], 5, none⟩], [⟨[2], 6, some ⟨6, 1, [9]⟩⟩]]
    (fun k => ⟨k, 0, false⟩) (fun a i _ => a ++ [i]) (fun _ => false)
    [([1], [⟨[1] ++ be64 4, none, 1⟩]),
     ([2], [⟨[2] ++ be64 6, some ⟨6, 1, [9]⟩, 0⟩])]
    (by decide) (by decide) (by decide) (by decide) (by decide) (by decide)

end Bulkloader
